import Mathlib

/-!
Verification of the NBT (Named Binary Tag) decoder of the `nbt2dict`
repository.  The repository ships the decoder as a C extension
(`_nbt2dict.c`, declared in `setup.py`) whose source is not part of the
visible tree; only its caller (`example.py`, using `parse_nbt`) is visible.
The decoder is therefore modelled here from the specification, faithfully
following its words: a bounds-checked cursor over a byte buffer and a
recursive-descent tag decoder with a configured maximum nesting depth.

Conventions of the embedding:
* a byte buffer is a `List Nat` of byte values (each `< 256` for real
  inputs); the cursor is an explicit position `pos` into the buffer;
* fallible operations return `Except NbtError (value × newPosition)`;
* recursion is structural on `dl`, the number of remaining allowed
  container descents (`dl = MAX_DEPTH - depth` in the spec's terms), so
  every decoding function is total and computable;
* float payloads are kept as their raw big-endian bit patterns, since the
  spec treats them as reinterpreted bytes and no claim concerns their
  numeric value;
* strings (names and String payloads) are kept as their raw byte lists.
-/

namespace NbtSpec

/-- Modelled from the spec: the error taxonomy of §7 of the specification
(the visible sources do not contain the decoder, so its error kinds are
taken verbatim from the spec). -/
inductive NbtError where
  | unexpectedEndOfInput
  | invalidTagType
  | invalidRootTag
  | negativeLength
  | duplicateName
  | maxDepthExceeded
  deriving DecidableEq, Repr

/-- Modelled from the spec: the decoded tag tree of §3.  `End` is not a
constructor: it only terminates Compounds and is never stored or returned.
Names and string payloads are byte lists; float payloads are raw bits. -/
inductive Tag where
  | byte (v : Int)
  | short (v : Int)
  | int (v : Int)
  | long (v : Int)
  | float (bits : Nat)
  | double (bits : Nat)
  | byteArray (vs : List Int)
  | string (s : List Nat)
  | list (elemKind : Nat) (elems : List Tag)
  | compound (entries : List (List Nat × Tag))
  | intArray (vs : List Int)
  | longArray (vs : List Int)
  deriving Repr

/-- Modelled from the spec: the dynamically-typed Python-side value universe
in which `parse_nbt` delivers its result (§6: a generic mapping / sequence /
scalar tree).  The `bytes` constructor represents a raw Python `bytes`
object — a value `json.dumps` rejects — so that JSON-serializability of
decoder output is a meaningful property rather than a tautology. -/
inductive PyValue where
  | int (i : Int)
  | float (bits : Nat)
  | str (s : List Nat)
  | bytes (bs : List Nat)
  | list (xs : List PyValue)
  | dict (entries : List (List Nat × PyValue))
  deriving Repr

/-- Big-endian value of a byte list. -/
def beVal (bytes : List Nat) : Nat := bytes.foldl (fun acc b => acc * 256 + b) 0

/-- Modelled from the spec: the Cursor's fixed-width big-endian read (§4.1);
reads `w` bytes at `pos`, failing with `UnexpectedEndOfInput` when fewer
than `w` bytes remain. -/
def readBE (w : Nat) (buf : List Nat) (pos : Nat) : Except NbtError (Nat × Nat) :=
  if pos + w ≤ buf.length then .ok (beVal ((buf.drop pos).take w), pos + w)
  else .error .unexpectedEndOfInput

/-- Two's-complement reinterpretation of a `bits`-wide unsigned value. -/
def asSigned (bits : Nat) (v : Nat) : Int :=
  if v < 2 ^ (bits - 1) then (v : Int) else (v : Int) - 2 ^ bits

/-- Modelled from the spec: signed fixed-width big-endian read of `w` bytes
(§4.1: `read_i8` … `read_i64`). -/
def readI (w : Nat) (buf : List Nat) (pos : Nat) : Except NbtError (Int × Nat) :=
  match readBE w buf pos with
  | .ok (v, p) => .ok (asSigned (8 * w) v, p)
  | .error e => .error e

/-- Modelled from the spec: one-byte unsigned read (§4.1 `read_u8`). -/
def readU8 (buf : List Nat) (pos : Nat) : Except NbtError (Nat × Nat) :=
  readBE 1 buf pos

/-- Modelled from the spec: length-prefixed string read (§3: an unsigned
16-bit byte count followed by that many bytes; a count that exceeds the
remaining buffer is an error). -/
def readStr (buf : List Nat) (pos : Nat) : Except NbtError (List Nat × Nat) :=
  match readBE 2 buf pos with
  | .error e => .error e
  | .ok (n, p1) =>
    if p1 + n ≤ buf.length then .ok ((buf.drop p1).take n, p1 + n)
    else .error .unexpectedEndOfInput

/-- Modelled from the spec: the fixed-width element loop of the
Byte/Int/Long array payloads (§4.2 table): read `c` signed elements of
width `w` bytes each. -/
def readIElems (w : Nat) (buf : List Nat) : Nat → Nat → Except NbtError (List Int × Nat)
  | 0, pos => .ok ([], pos)
  | c + 1, pos =>
    match readI w buf pos with
    | .error e => .error e
    | .ok (v, p1) =>
      match readIElems w buf c p1 with
      | .error e => .error e
      | .ok (vs, p2) => .ok (v :: vs, p2)

/-- Modelled from the spec: the List payload element loop (§4.2 table):
decode `c` unnamed payload-only values with the supplied element decoder. -/
def decodeElems (dec : Nat → Except NbtError (Tag × Nat)) :
    Nat → Nat → Except NbtError (List Tag × Nat)
  | 0, pos => .ok ([], pos)
  | c + 1, pos =>
    match dec pos with
    | .error e => .error e
    | .ok (v, p1) =>
      match decodeElems dec c p1 with
      | .error e => .error e
      | .ok (vs, p2) => .ok (v :: vs, p2)

/-- Modelled from the spec: the Compound body loop (§4.2 table): repeatedly
decode named tags until an End tag, collecting an ordered name → Tag
mapping and failing with `DuplicateName` on a repeated name.  `b` is a
structural iteration budget; callers pass `buf.length + 1 - pos`, and since
every iteration consumes at least one byte the `b = 0` branch can only be
reached with the cursor at the end of the buffer, where the next read
fails with `UnexpectedEndOfInput` exactly as the branch reports. -/
def decodeBody (dec : Nat → Except NbtError (Option (List Nat × Tag) × Nat)) :
    Nat → List (List Nat × Tag) → Nat → Except NbtError (List (List Nat × Tag) × Nat)
  | 0, _, _ => .error .unexpectedEndOfInput
  | b + 1, acc, pos =>
    match dec pos with
    | .error e => .error e
    | .ok (none, p1) => .ok (acc, p1)
    | .ok (some (nm, v), p1) =>
      if nm ∈ acc.map Prod.fst then .error .duplicateName
      else decodeBody dec b (acc ++ [(nm, v)]) p1

/-- Modelled from the spec: `decode_named_tag` (§4.2), parameterised by the
payload decoder so it can be shared between the depth-indexed recursion and
its public wrapper.  Reads the type byte (0–12, unknown values are
`InvalidTagType`), returns `none` for an End tag, otherwise reads the
length-prefixed name and the payload. -/
def decodeNamedWith (payloadDec : Nat → Nat → Except NbtError (Tag × Nat))
    (buf : List Nat) (pos : Nat) : Except NbtError (Option (List Nat × Tag) × Nat) :=
  match readU8 buf pos with
  | .error e => .error e
  | .ok (t, p1) =>
    if t = 0 then .ok (none, p1)
    else if t > 12 then .error .invalidTagType
    else
      match readStr buf p1 with
      | .error e => .error e
      | .ok (nm, p2) =>
        match payloadDec t p2 with
        | .error e => .error e
        | .ok (v, p3) => .ok (some (nm, v), p3)

/-- Modelled from the spec: the payload decoding table of §4.2.  `dl` is the
number of container descents still allowed (the spec's depth cap counted
down, so "depth d" corresponds to `dl = MAX_DEPTH - d`); recursing into a
List or Compound with `dl = 0` fails with `MaxDepthExceeded` rather than
recursing further.  A payload request for type 0 (End has no payload form)
or a type above 12 fails with `InvalidTagType`, matching the spec's error
taxonomy ("a type byte outside the defined 0–12 range"). -/
def decodePayload (buf : List Nat) : Nat → Nat → Nat → Except NbtError (Tag × Nat)
  | dl, t, pos =>
    match t with
    | 1 =>
      match readI 1 buf pos with
      | .error e => .error e
      | .ok (v, p) => .ok (.byte v, p)
    | 2 =>
      match readI 2 buf pos with
      | .error e => .error e
      | .ok (v, p) => .ok (.short v, p)
    | 3 =>
      match readI 4 buf pos with
      | .error e => .error e
      | .ok (v, p) => .ok (.int v, p)
    | 4 =>
      match readI 8 buf pos with
      | .error e => .error e
      | .ok (v, p) => .ok (.long v, p)
    | 5 =>
      match readBE 4 buf pos with
      | .error e => .error e
      | .ok (v, p) => .ok (.float v, p)
    | 6 =>
      match readBE 8 buf pos with
      | .error e => .error e
      | .ok (v, p) => .ok (.double v, p)
    | 7 =>
      match readI 4 buf pos with
      | .error e => .error e
      | .ok (c, p1) =>
        if c < 0 then .error .negativeLength
        else
          match readIElems 1 buf c.toNat p1 with
          | .error e => .error e
          | .ok (vs, p2) => .ok (.byteArray vs, p2)
    | 8 =>
      match readStr buf pos with
      | .error e => .error e
      | .ok (s, p) => .ok (.string s, p)
    | 9 =>
      match readU8 buf pos with
      | .error e => .error e
      | .ok (ek, p1) =>
        match readI 4 buf p1 with
        | .error e => .error e
        | .ok (c, p2) =>
          if c < 0 then .error .negativeLength
          else
            match dl with
            | 0 => .error .maxDepthExceeded
            | d + 1 =>
              match decodeElems (fun q => decodePayload buf d ek q) c.toNat p2 with
              | .error e => .error e
              | .ok (vs, p3) => .ok (.list ek vs, p3)
    | 10 =>
      match dl with
      | 0 => .error .maxDepthExceeded
      | d + 1 =>
        match decodeBody (fun q => decodeNamedWith (fun u q2 => decodePayload buf d u q2) buf q)
            (buf.length + 1 - pos) [] pos with
        | .error e => .error e
        | .ok (es, p1) => .ok (.compound es, p1)
    | 11 =>
      match readI 4 buf pos with
      | .error e => .error e
      | .ok (c, p1) =>
        if c < 0 then .error .negativeLength
        else
          match readIElems 4 buf c.toNat p1 with
          | .error e => .error e
          | .ok (vs, p2) => .ok (.intArray vs, p2)
    | 12 =>
      match readI 4 buf pos with
      | .error e => .error e
      | .ok (c, p1) =>
        if c < 0 then .error .negativeLength
        else
          match readIElems 8 buf c.toNat p1 with
          | .error e => .error e
          | .ok (vs, p2) => .ok (.longArray vs, p2)
    | _ => .error .invalidTagType

/-- Modelled from the spec: `decode_named_tag` at a given remaining-depth
budget `dl`. -/
def decodeNamedTag (buf : List Nat) (dl : Nat) (pos : Nat) :
    Except NbtError (Option (List Nat × Tag) × Nat) :=
  decodeNamedWith (fun u q => decodePayload buf dl u q) buf pos

/-- Modelled from the spec: the configured maximum nesting depth (§4.2:
"a configured maximum (e.g. 512)"). -/
def MAX_DEPTH : Nat := 512

/-- Modelled from the spec: the top-level entry point `parse` of §4.2 at the
`Tag` level: decode one named tag at depth 0, require it to be a Compound
(anything else, including a bare End, is `InvalidRootTag`), and ignore any
trailing bytes after the root Compound (the spec leaves the trailing-byte
policy open and recommends ignoring them).  Returns the named root and the
number of bytes the root Compound occupied. -/
def parseRoot (buf : List Nat) : Except NbtError ((List Nat × Tag) × Nat) :=
  match decodeNamedTag buf MAX_DEPTH 0 with
  | .error e => .error e
  | .ok (none, _) => .error .invalidRootTag
  | .ok (some (nm, v), p) =>
    match v with
    | .compound es => .ok ((nm, .compound es), p)
    | _ => .error .invalidRootTag

mutual

/-- Modelled from the spec: conversion of the decoded tag tree into the
generic Python-side mapping / sequence / scalar tree that `parse_nbt`
returns (§6): integers stay integers, floats stay floats, strings become
text, the three integer-array kinds become sequences of integers (not raw
byte objects), Lists become sequences and Compounds become mappings. -/
def toPy : Tag → PyValue
  | .byte v => .int v
  | .short v => .int v
  | .int v => .int v
  | .long v => .int v
  | .float bits => .float bits
  | .double bits => .float bits
  | .byteArray vs => .list (vs.map PyValue.int)
  | .string s => .str s
  | .list _ ts => .list (toPyList ts)
  | .compound es => .dict (toPyEntries es)
  | .intArray vs => .list (vs.map PyValue.int)
  | .longArray vs => .list (vs.map PyValue.int)

/-- Pointwise `toPy` over List elements. -/
def toPyList : List Tag → List PyValue
  | [] => []
  | t :: ts => toPy t :: toPyList ts

/-- Pointwise `toPy` over Compound entries. -/
def toPyEntries : List (List Nat × Tag) → List (List Nat × PyValue)
  | [] => []
  | (n, t) :: es => (n, toPy t) :: toPyEntries es

end

/-- Modelled from the spec: the public entry point `parse_nbt` visible in
`example.py`: decode the root, require a Compound, deliver the root name
together with the generic Python-side tree (trailing bytes ignored). -/
def parse_nbt (buf : List Nat) : Except NbtError (List Nat × PyValue) :=
  match parseRoot buf with
  | .error e => .error e
  | .ok ((nm, v), _) => .ok (nm, toPy v)

/-- Type byte of a decoded tag (the TagKind discriminant, 1–12). -/
def kindOf : Tag → Nat
  | .byte _ => 1
  | .short _ => 2
  | .int _ => 3
  | .long _ => 4
  | .float _ => 5
  | .double _ => 6
  | .byteArray _ => 7
  | .string _ => 8
  | .list _ _ => 9
  | .compound _ => 10
  | .intArray _ => 11
  | .longArray _ => 12

mutual

/-- Container-nesting depth of a decoded tag: scalars, arrays and strings
have depth 0; a List or Compound is one deeper than its deepest child. -/
def tagDepth : Tag → Nat
  | .list _ ts => 1 + tagDepthList ts
  | .compound es => 1 + tagDepthEntries es
  | _ => 0

/-- Deepest container nesting among List elements. -/
def tagDepthList : List Tag → Nat
  | [] => 0
  | t :: ts => max (tagDepth t) (tagDepthList ts)

/-- Deepest container nesting among Compound entries. -/
def tagDepthEntries : List (List Nat × Tag) → Nat
  | [] => 0
  | e :: es => max (tagDepth e.2) (tagDepthEntries es)

end

mutual

/-- Every Compound anywhere in the tag tree has pairwise-distinct child
names. -/
def compoundsOk : Tag → Bool
  | .list _ ts => compoundsOkList ts
  | .compound es => decide ((es.map Prod.fst).Nodup) && compoundsOkEntries es
  | _ => true

/-- `compoundsOk` over List elements. -/
def compoundsOkList : List Tag → Bool
  | [] => true
  | t :: ts => compoundsOk t && compoundsOkList ts

/-- `compoundsOk` over Compound entries. -/
def compoundsOkEntries : List (List Nat × Tag) → Bool
  | [] => true
  | e :: es => compoundsOk e.2 && compoundsOkEntries es

end

mutual

/-- The value is built solely from the JSON-serializable part of the Python
value universe: mappings, sequences, text strings, integers and floats —
in particular it contains no raw `bytes` object anywhere. -/
def jsonable : PyValue → Bool
  | .int _ => true
  | .float _ => true
  | .str _ => true
  | .bytes _ => false
  | .list xs => jsonableList xs
  | .dict es => jsonableEntries es

/-- `jsonable` over sequence elements. -/
def jsonableList : List PyValue → Bool
  | [] => true
  | x :: xs => jsonable x && jsonableList xs

/-- `jsonable` over mapping entries. -/
def jsonableEntries : List (List Nat × PyValue) → Bool
  | [] => true
  | e :: es => jsonable e.2 && jsonableEntries es

end

/-- Crafted adversarial payload: `nestList n` is the payload of a List
nested `n` levels deep — each level declares element kind List (9) and
count 1, and the innermost level declares element kind End (0) and
count 0. -/
def nestList : Nat → List Nat
  | 0 => [0, 0, 0, 0, 0]
  | n + 1 => 9 :: 0 :: 0 :: 0 :: 1 :: nestList n

/-- Crafted adversarial input: a root Compound named `""` whose single
child is a List named `""` with payload `nestList n`; its container
nesting is `n + 2` (the root Compound plus `n + 1` nested Lists). -/
def deepInput (n : Nat) : List Nat :=
  10 :: 0 :: 0 :: 9 :: 0 :: 0 :: nestList n

/-! ### Basic facts about the cursor reads -/

theorem readBE_ok_iff (w : Nat) (buf : List Nat) (pos : Nat) (v p : Nat)
    (h : readBE w buf pos = .ok (v, p)) :
    p = pos + w ∧ pos + w ≤ buf.length ∧ v = beVal ((buf.drop pos).take w) := by
  unfold readBE at h
  split at h
  · simp only [Except.ok.injEq, Prod.mk.injEq] at h
    exact ⟨h.2.symm, by assumption, h.1.symm⟩
  · exact absurd h (by simp)

theorem readBE_of_drop (w : Nat) (buf : List Nat) (pos : Nat) (bs rest : List Nat)
    (hd : buf.drop pos = bs ++ rest) (hw : bs.length = w) (hw0 : 0 < w) :
    readBE w buf pos = .ok (beVal bs, pos + w) := by
  have hlen : (buf.drop pos).length = buf.length - pos := List.length_drop pos buf
  rw [hd] at hlen
  simp only [List.length_append, hw] at hlen
  have hple : pos + w ≤ buf.length := by
    by_cases hp : pos ≤ buf.length
    · omega
    · exfalso
      have : buf.drop pos = [] := List.drop_eq_nil_iff.mpr (by omega)
      rw [this] at hd
      have := congrArg List.length hd.symm
      simp [hw] at this
      omega
  have htake : (buf.drop pos).take w = bs := by
    rw [hd, ← hw]
    exact List.take_left bs rest
  unfold readBE
  rw [if_pos hple, htake]

theorem readI_ok_iff (w : Nat) (buf : List Nat) (pos : Nat) (v : Int) (p : Nat)
    (h : readI w buf pos = .ok (v, p)) :
    p = pos + w ∧ pos + w ≤ buf.length ∧
      v = asSigned (8 * w) (beVal ((buf.drop pos).take w)) := by
  unfold readI at h
  split at h
  next u q hq =>
    simp only [Except.ok.injEq, Prod.mk.injEq] at h
    obtain ⟨h1, h2, h3⟩ := readBE_ok_iff w buf pos u q hq
    exact ⟨h.2 ▸ h1, h2, by rw [← h.1, h3]⟩
  next => exact absurd h (by simp)

theorem readI_of_drop (w : Nat) (buf : List Nat) (pos : Nat) (bs rest : List Nat)
    (hd : buf.drop pos = bs ++ rest) (hw : bs.length = w) (hw0 : 0 < w) :
    readI w buf pos = .ok (asSigned (8 * w) (beVal bs), pos + w) := by
  unfold readI
  rw [readBE_of_drop w buf pos bs rest hd hw hw0]

theorem drop_succ_of_drop (buf : List Nat) (pos b : Nat) (l : List Nat)
    (hd : buf.drop pos = b :: l) : buf.drop (pos + 1) = l := by
  rw [← List.drop_drop, hd]
  rfl

/-- C1 helper: the spec's concrete scenario at the `Tag` level. -/
theorem parseRoot_concrete :
    parseRoot [10, 0, 0, 1, 0, 1, 65, 5, 0] =
      .ok (([], .compound [([65], .byte 5)]), 9) := rfl

/-- C1: decoding the byte sequence `0A 00 00 01 00 01 41 05 00` (a Compound
named `""` containing a Byte named `"A"` with value 5, then an End
terminator) succeeds and returns a root named `""` (the empty byte string)
whose value is the mapping from `"A"` (byte 0x41) to the integer 5. -/
theorem decode_concrete_compound_example :
    parse_nbt [10, 0, 0, 1, 0, 1, 65, 5, 0] = .ok ([], .dict [([65], .int 5)]) := by
  unfold parse_nbt
  rw [parseRoot_concrete]
  simp [toPy, toPyEntries, toPyList]

/-- C9: a Compound whose body immediately starts with an End byte decodes
to the empty mapping consuming exactly the End byte, and a List whose
header declares count 0 decodes to the empty sequence for every declared
element kind (the element-kind byte is not range-checked when no element is
decoded), consuming exactly the element-kind byte and the four count
bytes. -/
theorem empty_containers_decode_empty :
    (∀ (buf : List Nat) (pos dl : Nat) (rest : List Nat), 0 < dl →
        buf.drop pos = 0 :: rest →
        decodePayload buf dl 10 pos = .ok (.compound [], pos + 1)) ∧
    (∀ (buf : List Nat) (pos dl ek : Nat) (rest : List Nat), 0 < dl →
        buf.drop pos = ek :: 0 :: 0 :: 0 :: 0 :: rest →
        decodePayload buf dl 9 pos = .ok (.list ek [], pos + 5)) := by
  constructor
  · intro buf pos dl rest hdl hd
    obtain ⟨d, rfl⟩ : ∃ d, dl = d + 1 := ⟨dl - 1, by omega⟩
    have hlt : pos < buf.length := by
      have hl := List.length_drop pos buf
      rw [hd] at hl
      simp only [List.length_cons] at hl
      omega
    obtain ⟨b, hb⟩ : ∃ b, buf.length + 1 - pos = b + 1 := ⟨buf.length - pos, by omega⟩
    have hread : readU8 buf pos = .ok (0, pos + 1) := by
      have h := readBE_of_drop 1 buf pos [0] rest (by simpa using hd) rfl (by omega)
      simpa [beVal] using h
    simp only [decodePayload, hb, decodeBody, decodeNamedWith, hread]
    simp
  · intro buf pos dl ek rest hdl hd
    obtain ⟨d, rfl⟩ : ∃ d, dl = d + 1 := ⟨dl - 1, by omega⟩
    have hek : readU8 buf pos = .ok (ek, pos + 1) := by
      have h := readBE_of_drop 1 buf pos [ek] (0 :: 0 :: 0 :: 0 :: rest)
        (by simpa using hd) rfl (by omega)
      simpa [beVal] using h
    have hc : readI 4 buf (pos + 1) = .ok (0, pos + 5) := by
      have hd1 : buf.drop (pos + 1) = [0, 0, 0, 0] ++ rest :=
        drop_succ_of_drop buf pos ek (0 :: 0 :: 0 :: 0 :: rest) hd
      have h := readI_of_drop 4 buf (pos + 1) [0, 0, 0, 0] rest hd1 rfl (by omega)
      have hs : asSigned (8 * 4) (beVal [0, 0, 0, 0]) = 0 := by norm_num [asSigned, beVal]
      rw [hs] at h
      simpa [show pos + 1 + 4 = pos + 5 by omega] using h
    simp only [decodePayload, hek, hc]
    simp [decodeElems]

/-- C6: a negative declared signed 32-bit element count for a ByteArray,
IntArray, LongArray or List payload makes the decoder fail with
`NegativeLength`. -/
theorem negative_count_rejected :
    (∀ (buf : List Nat) (pos dl : Nat) (c : Int) (p1 : Nat) (t : Nat),
        t = 7 ∨ t = 11 ∨ t = 12 →
        readI 4 buf pos = .ok (c, p1) → c < 0 →
        decodePayload buf dl t pos = .error .negativeLength) ∧
    (∀ (buf : List Nat) (pos dl ek p1 : Nat) (c : Int) (p2 : Nat),
        readU8 buf pos = .ok (ek, p1) →
        readI 4 buf p1 = .ok (c, p2) → c < 0 →
        decodePayload buf dl 9 pos = .error .negativeLength) := by
  constructor
  · intro buf pos dl c p1 t ht hread hneg
    rcases ht with rfl | rfl | rfl <;>
      simp only [decodePayload, hread, if_pos hneg]
  · intro buf pos dl ek p1 c p2 hek hread hneg
    simp only [decodePayload, hek, hread, if_pos hneg]

/-- Witness for C6 at a concrete input: the four bytes `FF FF FF FF` read
as the signed 32-bit count −1, and a ByteArray payload decode over them
fails with `NegativeLength`. -/
theorem negative_count_rejected_witness :
    readI 4 [255, 255, 255, 255] 0 = .ok (-1, 4) ∧
    decodePayload [255, 255, 255, 255] 5 7 0 = .error .negativeLength := by
  refine ⟨by norm_num [readI, readBE, beVal, asSigned], ?_⟩
  exact negative_count_rejected.1 [255, 255, 255, 255] 0 5 (-1) 4 7 (Or.inl rfl)
    (by norm_num [readI, readBE, beVal, asSigned]) (by norm_num)

/-- Witness for C9 at concrete inputs: an empty Compound body and an empty
List with the out-of-the-ordinary declared element kind 0 (End). -/
theorem empty_containers_decode_empty_witness :
    decodePayload [0] 3 10 0 = .ok (.compound [], 1) ∧
    decodePayload [0, 0, 0, 0, 0] 3 9 0 = .ok (.list 0 [], 5) := by
  constructor
  · exact empty_containers_decode_empty.1 [0] 0 3 [] (by omega) rfl
  · exact empty_containers_decode_empty.2 [0, 0, 0, 0, 0] 0 3 0 [] (by omega) rfl

/-! ### Tag kinds and list elements -/

theorem decodePayload_kind (buf : List Nat) (dl t pos : Nat) (v : Tag) (p : Nat)
    (h : decodePayload buf dl t pos = .ok (v, p)) : kindOf v = t := by
  unfold decodePayload at h
  repeat' split at h
  all_goals try exact Except.noConfusion h
  all_goals (injection h with h1; injection h1 with h2 h3; rw [← h2])
  all_goals rfl

theorem decodeElems_length (dec : Nat → Except NbtError (Tag × Nat)) :
    ∀ (c pos : Nat) (vs : List Tag) (p : Nat),
      decodeElems dec c pos = .ok (vs, p) → vs.length = c := by
  intro c
  induction c with
  | zero =>
    intro pos vs p h
    simp only [decodeElems, Except.ok.injEq, Prod.mk.injEq] at h
    simp [← h.1]
  | succ n ih =>
    intro pos vs p h
    simp only [decodeElems] at h
    split at h
    · exact absurd h (by simp)
    next v1 p1 _ =>
      split at h
      · exact absurd h (by simp)
      next vs2 p2 hrec =>
        simp only [Except.ok.injEq, Prod.mk.injEq] at h
        rw [← h.1]
        simp [ih p1 vs2 p2 hrec]

theorem decodeElems_all (dec : Nat → Except NbtError (Tag × Nat)) (P : Tag → Prop)
    (hdec : ∀ q v p, dec q = .ok (v, p) → P v) :
    ∀ (c pos : Nat) (vs : List Tag) (p : Nat),
      decodeElems dec c pos = .ok (vs, p) → ∀ x ∈ vs, P x := by
  intro c
  induction c with
  | zero =>
    intro pos vs p h
    simp only [decodeElems, Except.ok.injEq, Prod.mk.injEq] at h
    simp [← h.1]
  | succ n ih =>
    intro pos vs p h
    simp only [decodeElems] at h
    split at h
    · exact absurd h (by simp)
    next v1 p1 hv1 =>
      split at h
      · exact absurd h (by simp)
      next vs2 p2 hrec =>
        simp only [Except.ok.injEq, Prod.mk.injEq] at h
        rw [← h.1]
        intro x hx
        rcases List.mem_cons.mp hx with rfl | hx2
        · exact hdec pos x p1 hv1
        · exact ih p1 vs2 p2 hrec x hx2

/-- C8: a successfully decoded List payload whose header declares element
kind `ek` and count `c` consists of exactly `c` values, each structurally a
bare payload of kind `ek` (list elements are bare `Tag`s; no name is
attached anywhere). -/
theorem list_elements_uniform :
    ∀ (buf : List Nat) (dl pos ek p1 : Nat) (c : Int) (p2 : Nat) (v : Tag) (p : Nat),
      readU8 buf pos = .ok (ek, p1) →
      readI 4 buf p1 = .ok (c, p2) →
      decodePayload buf dl 9 pos = .ok (v, p) →
      ∃ vs, v = .list ek vs ∧ (vs.length : Int) = c ∧ ∀ x ∈ vs, kindOf x = ek := by
  intro buf dl pos ek p1 c p2 v p hek hc h
  simp only [decodePayload, hek, hc] at h
  split at h
  · exact absurd h (by simp)
  next hc0 =>
    cases dl with
    | zero => exact absurd h (by simp)
    | succ d =>
      simp only at h
      split at h
      · exact absurd h (by simp)
      next vs p3 hrec =>
        simp only [Except.ok.injEq, Prod.mk.injEq] at h
        refine ⟨vs, h.1.symm, ?_, ?_⟩
        · rw [decodeElems_length _ c.toNat p2 vs p3 hrec]
          omega
        · exact decodeElems_all _ (fun x => kindOf x = ek)
            (fun q w pw hq => decodePayload_kind buf d ek q w pw hq)
            c.toNat p2 vs p3 hrec

/-- Witness for C8, which is also the spec's concrete scenario: a List
payload with element type Int (3) and count 2 whose elements are
`00000001` and `00000002` decodes to the bare sequence `[1, 2]`. -/
theorem list_elements_uniform_witness :
    decodePayload [3, 0, 0, 0, 2, 0, 0, 0, 1, 0, 0, 0, 2] 5 9 0 =
      .ok (.list 3 [.int 1, .int 2], 13) ∧
    ∃ vs, Tag.list 3 [.int 1, .int 2] = .list 3 vs ∧ (vs.length : Int) = 2 ∧
      ∀ x ∈ vs, kindOf x = 3 :=
  ⟨rfl, list_elements_uniform [3, 0, 0, 0, 2, 0, 0, 0, 1, 0, 0, 0, 2]
    5 0 3 1 2 5 (.list 3 [.int 1, .int 2]) 13 rfl rfl rfl⟩

/-! ### The root tag must be a Compound -/

theorem parseRoot_ok_shape (buf : List Nat) (nm : List Nat) (v : Tag) (k : Nat)
    (h : parseRoot buf = .ok ((nm, v), k)) :
    decodeNamedTag buf MAX_DEPTH 0 = .ok (some (nm, v), k) ∧ ∃ es, v = .compound es := by
  unfold parseRoot at h
  split at h
  · exact Except.noConfusion h
  · exact Except.noConfusion h
  next nm0 v0 p hdec =>
    split at h
    next es =>
      injection h with h1
      injection h1 with h2 h3
      injection h2 with h4 h5
      subst h3
      subst h4
      subst h5
      exact ⟨hdec, es, rfl⟩
    · exact Except.noConfusion h

/-- C4: `parse_nbt` succeeds only when the top-level tag decodes to a
Compound; a successfully decoded top-level tag of any other kind, and a
bare top-level End tag, yield `InvalidRootTag`. -/
theorem root_must_be_compound :
    (∀ (buf : List Nat) (r : List Nat × PyValue), parse_nbt buf = .ok r →
        ∃ nm es k, decodeNamedTag buf MAX_DEPTH 0 = .ok (some (nm, .compound es), k) ∧
          r = (nm, toPy (.compound es))) ∧
    (∀ (buf : List Nat) (nm : List Nat) (v : Tag) (k : Nat),
        decodeNamedTag buf MAX_DEPTH 0 = .ok (some (nm, v), k) →
        (∀ es, v ≠ .compound es) → parse_nbt buf = .error .invalidRootTag) ∧
    (∀ (buf : List Nat) (k : Nat),
        decodeNamedTag buf MAX_DEPTH 0 = .ok (none, k) →
        parse_nbt buf = .error .invalidRootTag) := by
  refine ⟨?_, ?_, ?_⟩
  · intro buf r h
    unfold parse_nbt at h
    split at h
    · exact Except.noConfusion h
    next nm v k hroot =>
      obtain ⟨hdec, es, rfl⟩ := parseRoot_ok_shape buf nm v k hroot
      injection h with h1
      exact ⟨nm, es, k, hdec, h1.symm⟩
  · intro buf nm v k hdec hnc
    unfold parse_nbt parseRoot
    rw [hdec]
    cases v <;> simp_all
  · intro buf k hdec
    unfold parse_nbt parseRoot
    rw [hdec]

/-- Witness for C4 at a concrete input: a top-level Byte tag named `""`
with value 7 decodes as a named tag but `parse_nbt` rejects it with
`InvalidRootTag`. -/
theorem root_must_be_compound_witness :
    decodeNamedTag [1, 0, 0, 7] MAX_DEPTH 0 = .ok (some ([], .byte 7), 4) ∧
    parse_nbt [1, 0, 0, 7] = .error .invalidRootTag :=
  ⟨rfl, root_must_be_compound.2.1 [1, 0, 0, 7] [] (.byte 7) 4 rfl (by intro es h; cases h)⟩

/-! ### Type-tag validation -/

/-- C5 counterexample: the input `0A 00 00 09 00 00 0D 00 00 00 00 00`
(a Compound named `""` containing a List named `""` whose declared element
kind is 13 — outside the defined 0–12 range — with count 0, then End)
makes the decoder read the out-of-range type-tag byte 13 at offset 6 and
record it as the list's element kind, yet the decode succeeds instead of
failing with `InvalidTagType`. -/
theorem unknown_list_kind_empty_accepted :
    [10, 0, 0, 9, 0, 0, 13, 0, 0, 0, 0, 0][6]? = some 13 ∧
    parseRoot [10, 0, 0, 9, 0, 0, 13, 0, 0, 0, 0, 0] =
      .ok (([], .compound [([], .list 13 [])]), 12) ∧
    parse_nbt [10, 0, 0, 9, 0, 0, 13, 0, 0, 0, 0, 0] =
      .ok ([], .dict [([], .list [])]) := by
  refine ⟨rfl, rfl, ?_⟩
  unfold parse_nbt
  rw [show parseRoot [10, 0, 0, 9, 0, 0, 13, 0, 0, 0, 0, 0] =
    .ok (([], .compound [([], .list 13 [])]), 12) from rfl]
  simp [toPy, toPyEntries, toPyList]

/-- C5 amended: a type-tag byte outside 0–12 at a named-tag position always
fails with `InvalidTagType`; decoding a payload of a type outside 1–12
(hence any element of a List whose declared element kind is outside that
range, as soon as the count is positive) fails with `InvalidTagType`; and
every successfully decoded named tag has its type byte in 1 through 12.
Only a List that declares an out-of-range element kind together with
count 0 escapes validation of that byte (see the counterexample). -/
theorem tag_type_validation :
    (∀ (buf : List Nat) (dl pos t p1 : Nat),
        readU8 buf pos = .ok (t, p1) → 12 < t →
        decodeNamedTag buf dl pos = .error .invalidTagType) ∧
    (∀ (buf : List Nat) (dl t pos : Nat), 12 < t →
        decodePayload buf dl t pos = .error .invalidTagType) ∧
    (∀ (buf : List Nat) (dl pos d ek p1 : Nat) (c : Int) (p2 : Nat),
        readU8 buf pos = .ok (ek, p1) → 12 < ek →
        readI 4 buf p1 = .ok (c, p2) → 0 < c → dl = d + 1 →
        decodePayload buf dl 9 pos = .error .invalidTagType) ∧
    (∀ (buf : List Nat) (dl pos : Nat) (r : List Nat × Tag) (p : Nat),
        decodeNamedTag buf dl pos = .ok (some r, p) →
        ∃ t p1, readU8 buf pos = .ok (t, p1) ∧ 1 ≤ t ∧ t ≤ 12) := by
  refine ⟨?_, ?_, ?_, ?_⟩
  · intro buf dl pos t p1 hread ht
    unfold decodeNamedTag decodeNamedWith
    simp only [hread]
    rw [if_neg (by omega : ¬t = 0), if_pos ht]
  · intro buf dl t pos ht
    obtain ⟨s, rfl⟩ : ∃ s, t = s + 13 := ⟨t - 13, by omega⟩
    unfold decodePayload
    split <;> first | rfl | (exfalso; omega)
  · intro buf dl pos d ek p1 c p2 hek h13 hc hpos hdl
    subst hdl
    obtain ⟨s, rfl⟩ : ∃ s, ek = s + 13 := ⟨ek - 13, by omega⟩
    obtain ⟨m, hm⟩ : ∃ m, c.toNat = m + 1 := ⟨c.toNat - 1, by omega⟩
    simp only [decodePayload, hek, hc, if_neg (by omega : ¬c < 0), hm, decodeElems]
  · intro buf dl pos r p h
    unfold decodeNamedTag decodeNamedWith at h
    cases hr : readU8 buf pos with
    | error e => rw [hr] at h; exact Except.noConfusion h
    | ok tp =>
      obtain ⟨t, p1⟩ := tp
      simp only [hr] at h
      by_cases h0 : t = 0
      · rw [if_pos h0] at h
        injection h with h1
        injection h1 with h2 h3
        exact Option.noConfusion h2
      · rw [if_neg h0] at h
        by_cases h12 : 12 < t
        · rw [if_pos h12] at h
          exact Except.noConfusion h
        · exact ⟨t, p1, rfl, by omega, by omega⟩

/-- Witness for the amended C5: the named-tag decode of `0D 00 00`
(type byte 13) fails with `InvalidTagType`, and a List payload declaring
element kind 13 with count 1 fails with `InvalidTagType`. -/
theorem tag_type_validation_witness :
    readU8 [13, 0, 0] 0 = .ok (13, 1) ∧
    decodeNamedTag [13, 0, 0] 7 0 = .error .invalidTagType ∧
    decodePayload [13, 0, 0, 0, 1] 7 9 0 = .error .invalidTagType := by
  refine ⟨rfl, tag_type_validation.1 [13, 0, 0] 7 0 13 1 rfl (by omega), ?_⟩
  exact tag_type_validation.2.2.1 [13, 0, 0, 0, 1] 7 0 6 13 1 1 5 rfl (by omega)
    rfl (by omega) rfl

/-! ### Success-side structural invariants -/

theorem decodeNamedWith_ok_some (pd : Nat → Nat → Except NbtError (Tag × Nat))
    (buf : List Nat) (pos : Nat) (nm : List Nat) (v : Tag) (p : Nat)
    (h : decodeNamedWith pd buf pos = .ok (some (nm, v), p)) :
    ∃ t p1 p2, readU8 buf pos = .ok (t, p1) ∧ 1 ≤ t ∧ t ≤ 12 ∧
      readStr buf p1 = .ok (nm, p2) ∧ pd t p2 = .ok (v, p) := by
  unfold decodeNamedWith at h
  cases hr : readU8 buf pos with
  | error e => rw [hr] at h; exact Except.noConfusion h
  | ok tp =>
    obtain ⟨t, p1⟩ := tp
    simp only [hr] at h
    by_cases h0 : t = 0
    · rw [if_pos h0] at h
      injection h with h1
      injection h1 with h2 h3
      exact Option.noConfusion h2
    · rw [if_neg h0] at h
      by_cases h12 : 12 < t
      · rw [if_pos h12] at h
        exact Except.noConfusion h
      · rw [if_neg h12] at h
        cases hs : readStr buf p1 with
        | error e => rw [hs] at h; exact Except.noConfusion h
        | ok sp =>
          obtain ⟨nm2, p2⟩ := sp
          rw [hs] at h
          cases hp : pd t p2 with
          | error e => simp only [hp] at h; exact Except.noConfusion h
          | ok vp =>
            obtain ⟨v2, p3⟩ := vp
            simp only [hp] at h
            injection h with h1
            injection h1 with h2 h3
            injection h2 with h4
            injection h4 with h5 h6
            subst h3
            subst h5
            subst h6
            exact ⟨t, p1, p2, rfl, by omega, by omega, hs, hp⟩

theorem decodeBody_nodup (dec : Nat → Except NbtError (Option (List Nat × Tag) × Nat)) :
    ∀ (b : Nat) (acc : List (List Nat × Tag)) (pos : Nat)
      (es : List (List Nat × Tag)) (p : Nat),
      decodeBody dec b acc pos = .ok (es, p) → (acc.map Prod.fst).Nodup →
      (es.map Prod.fst).Nodup := by
  intro b
  induction b with
  | zero => intro acc pos es p h _; exact Except.noConfusion h
  | succ n ih =>
    intro acc pos es p h hacc
    simp only [decodeBody] at h
    split at h
    · exact Except.noConfusion h
    · injection h with h1
      injection h1 with h2 h3
      exact h2 ▸ hacc
    next nm v p1 hdec =>
      split at h
      · exact Except.noConfusion h
      next hnin =>
        refine ih _ p1 es p h ?_
        simp only [List.map_append, List.map_cons, List.map_nil]
        rw [List.nodup_append]
        exact ⟨hacc, List.nodup_singleton nm, by simpa using hnin⟩

theorem decodeBody_all (dec : Nat → Except NbtError (Option (List Nat × Tag) × Nat))
    (P : Tag → Prop) (hdec : ∀ q nm v p, dec q = .ok (some (nm, v), p) → P v) :
    ∀ (b : Nat) (acc : List (List Nat × Tag)) (pos : Nat)
      (es : List (List Nat × Tag)) (p : Nat),
      decodeBody dec b acc pos = .ok (es, p) → (∀ e ∈ acc, P e.2) →
      ∀ e ∈ es, P e.2 := by
  intro b
  induction b with
  | zero => intro acc pos es p h _; exact Except.noConfusion h
  | succ n ih =>
    intro acc pos es p h hacc
    simp only [decodeBody] at h
    split at h
    · exact Except.noConfusion h
    · injection h with h1
      injection h1 with h2 h3
      exact h2 ▸ hacc
    next nm v p1 hd =>
      split at h
      · exact Except.noConfusion h
      next hnin =>
        refine ih _ p1 es p h ?_
        intro e he
        rcases List.mem_append.mp he with he1 | he2
        · exact hacc e he1
        · have : e = (nm, v) := by simpa using he2
          subst this
          exact hdec pos nm v p1 hd

theorem compoundsOkList_of :
    ∀ (vs : List Tag), (∀ x ∈ vs, compoundsOk x = true) → compoundsOkList vs = true := by
  intro vs
  induction vs with
  | nil => intro _; simp [compoundsOkList]
  | cons t ts ih =>
    intro hx
    simp only [compoundsOkList, Bool.and_eq_true]
    exact ⟨hx t (by simp), ih (fun x h => hx x (by simp [h]))⟩

theorem compoundsOkEntries_of :
    ∀ (es : List (List Nat × Tag)), (∀ e ∈ es, compoundsOk e.2 = true) →
      compoundsOkEntries es = true := by
  intro es
  induction es with
  | nil => intro _; simp [compoundsOkEntries]
  | cons e es ih =>
    intro hx
    simp only [compoundsOkEntries, Bool.and_eq_true]
    exact ⟨hx e (by simp), ih (fun x h => hx x (by simp [h]))⟩

theorem tagDepthList_le :
    ∀ (vs : List Tag) (d : Nat), (∀ x ∈ vs, tagDepth x ≤ d) → tagDepthList vs ≤ d := by
  intro vs
  induction vs with
  | nil => intro d _; simp [tagDepthList]
  | cons t ts ih =>
    intro d hx
    simp only [tagDepthList]
    exact Nat.max_le.mpr ⟨hx t (by simp), ih d (fun x h => hx x (by simp [h]))⟩

theorem tagDepthEntries_le :
    ∀ (es : List (List Nat × Tag)) (d : Nat), (∀ e ∈ es, tagDepth e.2 ≤ d) →
      tagDepthEntries es ≤ d := by
  intro es
  induction es with
  | nil => intro d _; simp [tagDepthEntries]
  | cons e es ih =>
    intro d hx
    simp only [tagDepthEntries]
    exact Nat.max_le.mpr ⟨hx e (by simp), ih d (fun x h => hx x (by simp [h]))⟩

theorem jsonableList_map_int (vs : List Int) :
    jsonableList (vs.map PyValue.int) = true := by
  induction vs with
  | nil => simp [jsonableList]
  | cons v vs ih => simp [jsonableList, jsonable, ih]

theorem jsonableList_toPyList :
    ∀ (vs : List Tag), (∀ x ∈ vs, jsonable (toPy x) = true) →
      jsonableList (toPyList vs) = true := by
  intro vs
  induction vs with
  | nil => intro _; simp [toPyList, jsonableList]
  | cons t ts ih =>
    intro hx
    simp only [toPyList, jsonableList, Bool.and_eq_true]
    exact ⟨hx t (by simp), ih (fun x h => hx x (by simp [h]))⟩

theorem jsonableEntries_toPyEntries :
    ∀ (es : List (List Nat × Tag)), (∀ e ∈ es, jsonable (toPy e.2) = true) →
      jsonableEntries (toPyEntries es) = true := by
  intro es
  induction es with
  | nil => intro _; simp [toPyEntries, jsonableEntries]
  | cons e es ih =>
    obtain ⟨n, t⟩ := e
    intro hx
    simp only [toPyEntries, jsonableEntries, Bool.and_eq_true]
    exact ⟨hx (n, t) (by simp), ih (fun x h => hx x (by simp [h]))⟩

/-- Combined success-side invariant of payload decoding: every successfully
decoded tag has duplicate-free names in all of its Compounds, container
nesting bounded by the remaining depth budget, and a JSON-serializable
Python-side image. -/
theorem decodePayload_good (buf : List Nat) :
    ∀ (dl t pos : Nat) (v : Tag) (p : Nat),
      decodePayload buf dl t pos = .ok (v, p) →
      compoundsOk v = true ∧ tagDepth v ≤ dl ∧ jsonable (toPy v) = true := by
  intro dl
  induction dl using Nat.strong_induction_on with
  | _ dl ih =>
    intro t pos v p h
    unfold decodePayload at h
    split at h
    -- t = 1
    · split at h
      · exact Except.noConfusion h
      · injection h with h1
        injection h1 with h2 h3
        subst h2
        exact ⟨by simp [compoundsOk], by simp [tagDepth], by simp [toPy, jsonable]⟩
    -- t = 2
    · split at h
      · exact Except.noConfusion h
      · injection h with h1
        injection h1 with h2 h3
        subst h2
        exact ⟨by simp [compoundsOk], by simp [tagDepth], by simp [toPy, jsonable]⟩
    -- t = 3
    · split at h
      · exact Except.noConfusion h
      · injection h with h1
        injection h1 with h2 h3
        subst h2
        exact ⟨by simp [compoundsOk], by simp [tagDepth], by simp [toPy, jsonable]⟩
    -- t = 4
    · split at h
      · exact Except.noConfusion h
      · injection h with h1
        injection h1 with h2 h3
        subst h2
        exact ⟨by simp [compoundsOk], by simp [tagDepth], by simp [toPy, jsonable]⟩
    -- t = 5
    · split at h
      · exact Except.noConfusion h
      · injection h with h1
        injection h1 with h2 h3
        subst h2
        exact ⟨by simp [compoundsOk], by simp [tagDepth], by simp [toPy, jsonable]⟩
    -- t = 6
    · split at h
      · exact Except.noConfusion h
      · injection h with h1
        injection h1 with h2 h3
        subst h2
        exact ⟨by simp [compoundsOk], by simp [tagDepth], by simp [toPy, jsonable]⟩
    -- t = 7
    · split at h
      · exact Except.noConfusion h
      · split at h
        · exact Except.noConfusion h
        · split at h
          · exact Except.noConfusion h
          · injection h with h1
            injection h1 with h2 h3
            subst h2
            exact ⟨by simp [compoundsOk], by simp [tagDepth],
              by simp [toPy, jsonable, jsonableList_map_int]⟩
    -- t = 8
    · split at h
      · exact Except.noConfusion h
      · injection h with h1
        injection h1 with h2 h3
        subst h2
        exact ⟨by simp [compoundsOk], by simp [tagDepth], by simp [toPy, jsonable]⟩
    -- t = 9
    · split at h
      · exact Except.noConfusion h
      next ek p1 hek =>
        split at h
        · exact Except.noConfusion h
        next c p2 hc =>
          split at h
          · exact Except.noConfusion h
          next hc0 =>
            split at h
            · exact Except.noConfusion h
            next d =>
              split at h
              · exact Except.noConfusion h
              next vs p3 hel =>
                injection h with h1
                injection h1 with h2 h3
                subst h2
                have helems := decodeElems_all (fun q => decodePayload buf d ek q)
                  (fun x => compoundsOk x = true ∧ tagDepth x ≤ d ∧ jsonable (toPy x) = true)
                  (fun q w pw hq => ih d (Nat.lt_succ_self d) ek q w pw hq)
                  c.toNat p2 vs p3 hel
                refine ⟨?_, ?_, ?_⟩
                · simp only [compoundsOk]
                  exact compoundsOkList_of vs (fun x hx => (helems x hx).1)
                · simp only [tagDepth]
                  have := tagDepthList_le vs d (fun x hx => (helems x hx).2.1)
                  omega
                · simp only [toPy, jsonable]
                  exact jsonableList_toPyList vs (fun x hx => (helems x hx).2.2)
    -- t = 10
    · split at h
      · exact Except.noConfusion h
      next d =>
        split at h
        · exact Except.noConfusion h
        next es p1 hbody =>
          injection h with h1
          injection h1 with h2 h3
          subst h2
          have hdecP : ∀ q nm w pw,
              decodeNamedWith (fun u q2 => decodePayload buf d u q2) buf q =
                .ok (some (nm, w), pw) →
              compoundsOk w = true ∧ tagDepth w ≤ d ∧ jsonable (toPy w) = true := by
            intro q nm w pw hq
            obtain ⟨t2, q1, q2, _, _, _, _, hpd⟩ :=
              decodeNamedWith_ok_some _ buf q nm w pw hq
            exact ih d (Nat.lt_succ_self d) t2 q2 w pw hpd
          have hents := decodeBody_all _
            (fun x => compoundsOk x = true ∧ tagDepth x ≤ d ∧ jsonable (toPy x) = true)
            hdecP _ [] pos es p1 hbody (by simp)
          have hnd := decodeBody_nodup _ _ [] pos es p1 hbody (by simp)
          refine ⟨?_, ?_, ?_⟩
          · simp only [compoundsOk, Bool.and_eq_true, decide_eq_true_eq]
            exact ⟨hnd, compoundsOkEntries_of es (fun e he => (hents e he).1)⟩
          · simp only [tagDepth]
            have := tagDepthEntries_le es d (fun e he => (hents e he).2.1)
            omega
          · simp only [toPy, jsonable]
            exact jsonableEntries_toPyEntries es (fun e he => (hents e he).2.2)
    -- t = 11
    · split at h
      · exact Except.noConfusion h
      · split at h
        · exact Except.noConfusion h
        · split at h
          · exact Except.noConfusion h
          · injection h with h1
            injection h1 with h2 h3
            subst h2
            exact ⟨by simp [compoundsOk], by simp [tagDepth],
              by simp [toPy, jsonable, jsonableList_map_int]⟩
    -- t = 12
    · split at h
      · exact Except.noConfusion h
      · split at h
        · exact Except.noConfusion h
        · split at h
          · exact Except.noConfusion h
          · injection h with h1
            injection h1 with h2 h3
            subst h2
            exact ⟨by simp [compoundsOk], by simp [tagDepth],
              by simp [toPy, jsonable, jsonableList_map_int]⟩
    -- other t
    · exact Except.noConfusion h

/-- C7: within every successfully decoded tree all Compounds (the root
included) have pairwise-distinct child names, and the spec's concrete
scenario — one Compound with two children both named `"x"` — aborts the
whole decode with `DuplicateName`, returning no partial mapping. -/
theorem duplicate_names_rejected :
    (∀ (buf : List Nat) (nm : List Nat) (v : Tag) (k : Nat),
        parseRoot buf = .ok ((nm, v), k) → compoundsOk v = true) ∧
    parse_nbt [10, 0, 0, 1, 0, 1, 120, 1, 1, 0, 1, 120, 2, 0] =
      .error .duplicateName := by
  constructor
  · intro buf nm v k h
    obtain ⟨hdec, es, rfl⟩ := parseRoot_ok_shape buf nm v k h
    unfold decodeNamedTag at hdec
    obtain ⟨t, p1, p2, _, _, _, _, hpd⟩ :=
      decodeNamedWith_ok_some _ buf 0 nm _ k hdec
    exact (decodePayload_good buf MAX_DEPTH t p2 _ k hpd).1
  · rfl

/-- Witness for C7 at a concrete input: the successfully decoded Compound
of the concrete scenario of C1 has duplicate-free child names. -/
theorem duplicate_names_rejected_witness :
    parseRoot [10, 0, 0, 1, 0, 1, 65, 5, 0] =
      .ok (([], .compound [([65], .byte 5)]), 9) ∧
    compoundsOk (.compound [([65], .byte 5)]) = true :=
  ⟨parseRoot_concrete, duplicate_names_rejected.1 [10, 0, 0, 1, 0, 1, 65, 5, 0]
    [] (.compound [([65], .byte 5)]) 9 parseRoot_concrete⟩

/-- C10: every successful `parse_nbt` result is built solely from the
JSON-serializable Python values (mappings, sequences, text strings,
integers, floats) — in particular the three integer-array payload kinds
come back as sequences of integers, never as raw byte objects, so
serializing any successful result with `json.dumps` succeeds. -/
theorem result_json_serializable :
    ∀ (buf : List Nat) (nm : List Nat) (v : PyValue),
      parse_nbt buf = .ok (nm, v) → jsonable v = true := by
  intro buf nm v h
  unfold parse_nbt at h
  split at h
  · exact Except.noConfusion h
  next nm2 v2 k hroot =>
    obtain ⟨hdec, es, rfl⟩ := parseRoot_ok_shape buf nm2 v2 k hroot
    unfold decodeNamedTag at hdec
    obtain ⟨t, p1, p2, _, _, _, _, hpd⟩ :=
      decodeNamedWith_ok_some _ buf 0 nm2 _ k hdec
    injection h with h1
    injection h1 with h2 h3
    rw [← h3]
    exact (decodePayload_good buf MAX_DEPTH t p2 _ k hpd).2.2

/-- Witness for C10 at a concrete input: the result of decoding the C1
bytes is JSON-serializable. -/
theorem result_json_serializable_witness :
    jsonable (.dict [([65], .int 5)]) = true :=
  result_json_serializable [10, 0, 0, 1, 0, 1, 65, 5, 0] [] (.dict [([65], .int 5)])
    (by unfold parse_nbt
        rw [parseRoot_concrete]
        simp [toPy, toPyEntries, toPyList])

/-! ### The depth cap -/

theorem readU8_of_drop (buf : List Nat) (pos b : Nat) (rest : List Nat)
    (hd : buf.drop pos = b :: rest) : readU8 buf pos = .ok (b, pos + 1) := by
  have h := readBE_of_drop 1 buf pos [b] rest (by simpa using hd) rfl (by omega)
  unfold readU8
  simpa [beVal] using h

theorem readI32_of_drop (buf : List Nat) (pos b0 b1 b2 b3 : Nat) (rest : List Nat)
    (hd : buf.drop pos = b0 :: b1 :: b2 :: b3 :: rest) :
    readI 4 buf pos = .ok (asSigned 32 (beVal [b0, b1, b2, b3]), pos + 4) := by
  have h := readI_of_drop 4 buf pos [b0, b1, b2, b3] rest (by simpa using hd) rfl (by omega)
  simpa using h

theorem readStr_empty (buf : List Nat) (pos : Nat) (rest : List Nat)
    (hd : buf.drop pos = 0 :: 0 :: rest) : readStr buf pos = .ok ([], pos + 2) := by
  have h2 := readBE_of_drop 2 buf pos [0, 0] rest (by simpa using hd) rfl (by omega)
  have hb : beVal [0, 0] = 0 := rfl
  rw [hb] at h2
  have hlen : pos + 2 ≤ buf.length := (readBE_ok_iff 2 buf pos 0 (pos + 2) h2).2.1
  unfold readStr
  simp only [h2]
  rw [if_pos (by omega : pos + 2 + 0 ≤ buf.length)]
  simp

theorem drop_append_of_drop (buf : List Nat) (pos : Nat) (bs rest : List Nat)
    (hd : buf.drop pos = bs ++ rest) : buf.drop (pos + bs.length) = rest := by
  rw [← List.drop_drop bs.length pos buf, hd, List.drop_left]

theorem nestList_length (n : Nat) : (nestList n).length = 5 * n + 5 := by
  induction n with
  | zero => rfl
  | succ m ih => simp [nestList, ih]; omega

theorem decodePayload_list_child_error (buf : List Nat) (d pos ek p1 : Nat) (c : Int)
    (p2 : Nat) (e : NbtError)
    (hek : readU8 buf pos = .ok (ek, p1))
    (hc : readI 4 buf p1 = .ok (c, p2))
    (hcpos : 0 < c)
    (hchild : decodePayload buf d ek p2 = .error e) :
    decodePayload buf (d + 1) 9 pos = .error e := by
  obtain ⟨m, hm⟩ : ∃ m, c.toNat = m + 1 := ⟨c.toNat - 1, by omega⟩
  rw [decodePayload.eq_def]
  simp only [hek, hc, if_neg (show ¬c < 0 from by omega), hm, decodeElems, hchild]

theorem nestList_fail (buf : List Nat) :
    ∀ (dl n pos : Nat) (rest : List Nat),
      buf.drop pos = nestList n ++ rest → dl ≤ n →
      decodePayload buf dl 9 pos = .error .maxDepthExceeded := by
  intro dl
  induction dl with
  | zero =>
    intro n pos rest hd hn
    cases n with
    | zero =>
      simp only [nestList, List.cons_append, List.nil_append] at hd
      have hek := readU8_of_drop buf pos 0 _ hd
      have hc := readI32_of_drop buf (pos + 1) 0 0 0 0 rest (drop_succ_of_drop buf pos 0 _ hd)
      have hz : asSigned 32 (beVal [0, 0, 0, 0]) = 0 := by norm_num [asSigned, beVal]
      rw [hz] at hc
      simp only [decodePayload, hek, hc]
      norm_num
    | succ m =>
      simp only [nestList, List.cons_append] at hd
      have hek := readU8_of_drop buf pos 9 _ hd
      have hc := readI32_of_drop buf (pos + 1) 0 0 0 1 _ (drop_succ_of_drop buf pos 9 _ hd)
      have hz : asSigned 32 (beVal [0, 0, 0, 1]) = 1 := by norm_num [asSigned, beVal]
      rw [hz] at hc
      simp only [decodePayload, hek, hc]
      norm_num
  | succ d ih =>
    intro n pos rest hd hn
    obtain ⟨m, rfl⟩ : ∃ m, n = m + 1 := ⟨n - 1, by omega⟩
    simp only [nestList, List.cons_append] at hd
    have hek := readU8_of_drop buf pos 9 _ hd
    have hc := readI32_of_drop buf (pos + 1) 0 0 0 1 _ (drop_succ_of_drop buf pos 9 _ hd)
    have hz : asSigned 32 (beVal [0, 0, 0, 1]) = 1 := by norm_num [asSigned, beVal]
    rw [hz, show pos + 1 + 4 = pos + 5 from by omega] at hc
    have hd5 : buf.drop (pos + 5) = nestList m ++ rest := by
      have h := drop_append_of_drop buf pos [9, 0, 0, 0, 1] (nestList m ++ rest)
        (by simpa using hd)
      simpa using h
    have hrec := ih m (pos + 5) rest hd5 (by omega)
    exact decodePayload_list_child_error buf d pos 9 (pos + 1) 1 (pos + 5)
      .maxDepthExceeded hek hc (by norm_num) hrec

theorem decodePayload_compound_child_error (buf : List Nat) (d pos : Nat) (e : NbtError)
    (hpos : pos < buf.length)
    (hchild : decodeNamedWith (fun u q2 => decodePayload buf d u q2) buf pos = .error e) :
    decodePayload buf (d + 1) 10 pos = .error e := by
  obtain ⟨b, hb⟩ : ∃ b, buf.length + 1 - pos = b + 1 := ⟨buf.length - pos, by omega⟩
  simp only [decodePayload, hb, decodeBody, hchild]

/-- C3: every successfully decoded tree has container nesting bounded by
the configured maximum depth, and the crafted family of inputs whose
List/Compound nesting depth `n + 2` exceeds the configured maximum always
fails with `MaxDepthExceeded` — regardless of total input size (the input
grows with `n` and tolerates arbitrary trailing bytes); the decoder, a
total function, terminates on every input. -/
theorem depth_cap_enforced :
    (∀ (buf : List Nat) (nm : List Nat) (v : Tag) (k : Nat),
        parseRoot buf = .ok ((nm, v), k) → tagDepth v ≤ MAX_DEPTH) ∧
    (∀ (n : Nat) (rest : List Nat), MAX_DEPTH < n + 2 →
        parse_nbt (deepInput n ++ rest) = .error .maxDepthExceeded) := by
  constructor
  · intro buf nm v k h
    obtain ⟨hdec, es, rfl⟩ := parseRoot_ok_shape buf nm v k h
    unfold decodeNamedTag at hdec
    obtain ⟨t, p1, p2, _, _, _, _, hpd⟩ :=
      decodeNamedWith_ok_some _ buf 0 nm _ k hdec
    exact (decodePayload_good buf MAX_DEPTH t p2 _ k hpd).2.1
  · intro n rest hn
    have h511 : 511 ≤ n := by
      have h2 := hn
      simp only [MAX_DEPTH] at h2
      omega
    rw [show deepInput n ++ rest = 10 :: 0 :: 0 :: 9 :: 0 :: 0 :: (nestList n ++ rest) by
      simp [deepInput]]
    generalize hbx : (10 :: 0 :: 0 :: 9 :: 0 :: 0 :: (nestList n ++ rest) : List Nat) = bufx
    have h0 : readU8 bufx 0 = .ok (10, 1) :=
      readU8_of_drop bufx 0 10 (0 :: 0 :: 9 :: 0 :: 0 :: (nestList n ++ rest))
        (by rw [← hbx]; rfl)
    have hnm1 : readStr bufx 1 = .ok ([], 3) :=
      readStr_empty bufx 1 (9 :: 0 :: 0 :: (nestList n ++ rest)) (by rw [← hbx]; rfl)
    have h9 : readU8 bufx 3 = .ok (9, 4) :=
      readU8_of_drop bufx 3 9 (0 :: 0 :: (nestList n ++ rest)) (by rw [← hbx]; rfl)
    have hnm2 : readStr bufx 4 = .ok ([], 6) :=
      readStr_empty bufx 4 (nestList n ++ rest) (by rw [← hbx]; rfl)
    have hdrop6 : bufx.drop 6 = nestList n ++ rest := by rw [← hbx]; rfl
    have hlist : decodePayload bufx 511 9 6 = .error .maxDepthExceeded :=
      nestList_fail bufx 511 n 6 rest hdrop6 h511
    have hchild : decodeNamedWith (fun u q2 => decodePayload bufx 511 u q2) bufx 3 =
        .error .maxDepthExceeded := by
      unfold decodeNamedWith
      simp only [h9]
      norm_num [hnm2, hlist]
    have h3len : 3 < bufx.length := by
      rw [← hbx]
      simp only [List.length_cons, List.length_append, nestList_length]
      omega
    have hmain : decodePayload bufx 512 10 3 = .error .maxDepthExceeded :=
      decodePayload_compound_child_error bufx 511 3 .maxDepthExceeded h3len hchild
    unfold parse_nbt parseRoot decodeNamedTag decodeNamedWith
    simp only [MAX_DEPTH, h0]
    norm_num [hnm1, hmain]

/-- Witness for C3 at a concrete input: the crafted input with container
nesting 513 (one more than the configured maximum 512) fails with
`MaxDepthExceeded`. -/
theorem depth_cap_enforced_witness :
    MAX_DEPTH < 511 + 2 ∧
    parse_nbt (deepInput 511 ++ []) = .error .maxDepthExceeded :=
  ⟨by norm_num [MAX_DEPTH], depth_cap_enforced.2 511 [] (by norm_num [MAX_DEPTH])⟩

/-! ### Truncation: reads on a shortened buffer -/

theorem readBE_trunc_ok (w : Nat) (buf : List Nat) (pos v p j : Nat)
    (h : readBE w buf pos = .ok (v, p)) (hpj : p ≤ j) (hj : j ≤ buf.length) :
    readBE w (buf.take j) pos = .ok (v, p) := by
  obtain ⟨rfl, hle, rfl⟩ := readBE_ok_iff w buf pos v p h
  unfold readBE
  rw [List.length_take, if_pos (by omega : pos + w ≤ min j buf.length)]
  rw [List.drop_take j pos buf, List.take_take w (j - pos) (buf.drop pos),
    Nat.min_eq_left (by omega)]

theorem readBE_trunc_err (w : Nat) (buf : List Nat) (pos v p j : Nat)
    (h : readBE w buf pos = .ok (v, p)) (hjp : j < p) :
    readBE w (buf.take j) pos = .error .unexpectedEndOfInput := by
  obtain ⟨rfl, hle, rfl⟩ := readBE_ok_iff w buf pos v p h
  unfold readBE
  rw [List.length_take, if_neg (by omega : ¬pos + w ≤ min j buf.length)]

theorem readI_trunc_ok (w : Nat) (buf : List Nat) (pos : Nat) (v : Int) (p j : Nat)
    (h : readI w buf pos = .ok (v, p)) (hpj : p ≤ j) (hj : j ≤ buf.length) :
    readI w (buf.take j) pos = .ok (v, p) := by
  unfold readI at h ⊢
  cases hbe : readBE w buf pos with
  | error e => rw [hbe] at h; exact Except.noConfusion h
  | ok up =>
    obtain ⟨u, q⟩ := up
    rw [hbe] at h
    injection h with h1
    injection h1 with h2 h3
    subst h2
    subst h3
    simp only [readBE_trunc_ok w buf pos u q j hbe hpj hj]

theorem readI_trunc_err (w : Nat) (buf : List Nat) (pos : Nat) (v : Int) (p j : Nat)
    (h : readI w buf pos = .ok (v, p)) (hjp : j < p) :
    readI w (buf.take j) pos = .error .unexpectedEndOfInput := by
  unfold readI at h ⊢
  cases hbe : readBE w buf pos with
  | error e => rw [hbe] at h; exact Except.noConfusion h
  | ok up =>
    obtain ⟨u, q⟩ := up
    rw [hbe] at h
    injection h with h1
    injection h1 with h2 h3
    subst h2
    subst h3
    simp only [readBE_trunc_err w buf pos u q j hbe hjp]

theorem readStr_ok_iff (buf : List Nat) (pos : Nat) (s : List Nat) (p : Nat)
    (h : readStr buf pos = .ok (s, p)) :
    ∃ n, readBE 2 buf pos = .ok (n, pos + 2) ∧ p = pos + 2 + n ∧ p ≤ buf.length ∧
      s = (buf.drop (pos + 2)).take n := by
  unfold readStr at h
  cases hbe : readBE 2 buf pos with
  | error e => rw [hbe] at h; exact Except.noConfusion h
  | ok np =>
    obtain ⟨n, p1⟩ := np
    obtain ⟨hp1, hle, hv⟩ := readBE_ok_iff 2 buf pos n p1 hbe
    subst hp1
    simp only [hbe] at h
    split at h
    next hlen =>
      injection h with h1
      injection h1 with h2 h3
      subst h2
      subst h3
      exact ⟨n, rfl, rfl, hlen, rfl⟩
    next => exact Except.noConfusion h

theorem readStr_mono (buf : List Nat) (pos : Nat) (s : List Nat) (p : Nat)
    (h : readStr buf pos = .ok (s, p)) : pos + 2 ≤ p ∧ p ≤ buf.length := by
  obtain ⟨n, _, hp, hle, _⟩ := readStr_ok_iff buf pos s p h
  omega

theorem readStr_trunc_ok (buf : List Nat) (pos : Nat) (s : List Nat) (p j : Nat)
    (h : readStr buf pos = .ok (s, p)) (hpj : p ≤ j) (hj : j ≤ buf.length) :
    readStr (buf.take j) pos = .ok (s, p) := by
  obtain ⟨n, hbe, hp, hle, hs⟩ := readStr_ok_iff buf pos s p h
  subst hp
  subst hs
  unfold readStr
  simp only [readBE_trunc_ok 2 buf pos n (pos + 2) j hbe (by omega) hj]
  rw [List.length_take, if_pos (by omega : pos + 2 + n ≤ min j buf.length)]
  rw [List.drop_take j (pos + 2) buf, List.take_take n (j - (pos + 2)) (buf.drop (pos + 2)),
    Nat.min_eq_left (by omega)]

theorem readStr_trunc_err (buf : List Nat) (pos : Nat) (s : List Nat) (p j : Nat)
    (h : readStr buf pos = .ok (s, p)) (hjp : j < p) :
    readStr (buf.take j) pos = .error .unexpectedEndOfInput := by
  obtain ⟨n, hbe, hp, hle, hs⟩ := readStr_ok_iff buf pos s p h
  subst hp
  unfold readStr
  by_cases hp2 : pos + 2 ≤ j
  · simp only [readBE_trunc_ok 2 buf pos n (pos + 2) j hbe hp2 (by omega)]
    rw [List.length_take, if_neg (by omega : ¬pos + 2 + n ≤ min j buf.length)]
  · simp only [readBE_trunc_err 2 buf pos n (pos + 2) j hbe (by omega)]

/-! ### Monotonicity of the cursor position -/

theorem readIElems_mono (w : Nat) (buf : List Nat) :
    ∀ (c pos : Nat) (vs : List Int) (p : Nat),
      readIElems w buf c pos = .ok (vs, p) →
      pos ≤ p ∧ (pos ≤ buf.length → p ≤ buf.length) := by
  intro c
  induction c with
  | zero =>
    intro pos vs p h
    injection h with h1
    injection h1 with h2 h3
    subst h3
    exact ⟨Nat.le_refl pos, fun hh => hh⟩
  | succ m ih =>
    intro pos vs p h
    simp only [readIElems] at h
    split at h
    · exact Except.noConfusion h
    next v1 p1 h1 =>
      split at h
      · exact Except.noConfusion h
      next vs2 p2 h2 =>
        injection h with h3
        injection h3 with h4 h5
        obtain ⟨ha, hb, _⟩ := readI_ok_iff w buf pos v1 p1 h1
        obtain ⟨hm1, hm2⟩ := ih p1 vs2 p2 h2
        have hm3 := hm2 (by omega)
        omega

theorem decodeElems_mono (L : Nat) (dec : Nat → Except NbtError (Tag × Nat))
    (hdec : ∀ q v p, dec q = .ok (v, p) → q ≤ p ∧ p ≤ L) :
    ∀ (c pos : Nat) (vs : List Tag) (p : Nat),
      decodeElems dec c pos = .ok (vs, p) → pos ≤ p ∧ (pos ≤ L → p ≤ L) := by
  intro c
  induction c with
  | zero =>
    intro pos vs p h
    injection h with h1
    injection h1 with h2 h3
    subst h3
    exact ⟨Nat.le_refl pos, fun hh => hh⟩
  | succ m ih =>
    intro pos vs p h
    simp only [decodeElems] at h
    split at h
    · exact Except.noConfusion h
    next v1 p1 h1 =>
      split at h
      · exact Except.noConfusion h
      next vs2 p2 h2 =>
        injection h with h3
        injection h3 with h4 h5
        obtain ⟨ha, hb⟩ := hdec pos v1 p1 h1
        obtain ⟨hm1, hm2⟩ := ih p1 vs2 p2 h2
        have hm3 := hm2 hb
        omega

theorem decodeBody_mono (L : Nat) (dec : Nat → Except NbtError (Option (List Nat × Tag) × Nat))
    (hdec : ∀ q r p, dec q = .ok (r, p) → q < p ∧ p ≤ L) :
    ∀ (b : Nat) (acc : List (List Nat × Tag)) (pos : Nat)
      (es : List (List Nat × Tag)) (p : Nat),
      decodeBody dec b acc pos = .ok (es, p) → pos ≤ p ∧ p ≤ L := by
  intro b
  induction b with
  | zero => intro acc pos es p h; exact Except.noConfusion h
  | succ m ih =>
    intro acc pos es p h
    simp only [decodeBody] at h
    split at h
    · exact Except.noConfusion h
    next p1 h1 =>
      injection h with h2
      injection h2 with h3 h4
      obtain ⟨ha, hb⟩ := hdec pos none p1 h1
      omega
    next nm v p1 h1 =>
      split at h
      · exact Except.noConfusion h
      next =>
        obtain ⟨ha, hb⟩ := hdec pos (some (nm, v)) p1 h1
        obtain ⟨hc, hd2⟩ := ih _ p1 es p h
        omega

theorem decodeNamedWith_mono (pd : Nat → Nat → Except NbtError (Tag × Nat))
    (buf : List Nat)
    (hpd : ∀ t q v p, pd t q = .ok (v, p) → q ≤ p ∧ p ≤ buf.length)
    (pos : Nat) (r : Option (List Nat × Tag)) (p : Nat)
    (h : decodeNamedWith pd buf pos = .ok (r, p)) : pos < p ∧ p ≤ buf.length := by
  unfold decodeNamedWith at h
  cases hr : readU8 buf pos with
  | error e => rw [hr] at h; exact Except.noConfusion h
  | ok tp =>
    obtain ⟨t, p1⟩ := tp
    have hp1 : p1 = pos + 1 ∧ pos + 1 ≤ buf.length := by
      obtain ⟨ha, hb, _⟩ := readBE_ok_iff 1 buf pos t p1 hr
      omega
    simp only [hr] at h
    by_cases h0 : t = 0
    · rw [if_pos h0] at h
      injection h with h1
      injection h1 with h2 h3
      omega
    · rw [if_neg h0] at h
      by_cases h12 : 12 < t
      · rw [if_pos h12] at h
        exact Except.noConfusion h
      · rw [if_neg h12] at h
        cases hs : readStr buf p1 with
        | error e => rw [hs] at h; exact Except.noConfusion h
        | ok sp =>
          obtain ⟨nm, p2⟩ := sp
          rw [hs] at h
          have hsm := readStr_mono buf p1 nm p2 hs
          cases hp : pd t p2 with
          | error e => simp only [hp] at h; exact Except.noConfusion h
          | ok vp =>
            obtain ⟨v, p3⟩ := vp
            simp only [hp] at h
            injection h with h1
            injection h1 with h2 h3
            have := hpd t p2 v p3 hp
            omega

theorem decodePayload_mono (buf : List Nat) :
    ∀ (dl t pos : Nat) (v : Tag) (p : Nat),
      decodePayload buf dl t pos = .ok (v, p) → pos ≤ p ∧ p ≤ buf.length := by
  intro dl
  induction dl using Nat.strong_induction_on with
  | _ dl ih =>
    intro t pos v p h
    unfold decodePayload at h
    split at h
    -- t = 1
    · split at h
      · exact Except.noConfusion h
      next v1 p1 h1 =>
        injection h with h2
        injection h2 with h3 h4
        obtain ⟨ha, _, _⟩ := readI_ok_iff 1 buf pos v1 p1 h1
        omega
    -- t = 2
    · split at h
      · exact Except.noConfusion h
      next v1 p1 h1 =>
        injection h with h2
        injection h2 with h3 h4
        obtain ⟨ha, _, _⟩ := readI_ok_iff 2 buf pos v1 p1 h1
        omega
    -- t = 3
    · split at h
      · exact Except.noConfusion h
      next v1 p1 h1 =>
        injection h with h2
        injection h2 with h3 h4
        obtain ⟨ha, _, _⟩ := readI_ok_iff 4 buf pos v1 p1 h1
        omega
    -- t = 4
    · split at h
      · exact Except.noConfusion h
      next v1 p1 h1 =>
        injection h with h2
        injection h2 with h3 h4
        obtain ⟨ha, _, _⟩ := readI_ok_iff 8 buf pos v1 p1 h1
        omega
    -- t = 5
    · split at h
      · exact Except.noConfusion h
      next v1 p1 h1 =>
        injection h with h2
        injection h2 with h3 h4
        obtain ⟨ha, _, _⟩ := readBE_ok_iff 4 buf pos v1 p1 h1
        omega
    -- t = 6
    · split at h
      · exact Except.noConfusion h
      next v1 p1 h1 =>
        injection h with h2
        injection h2 with h3 h4
        obtain ⟨ha, _, _⟩ := readBE_ok_iff 8 buf pos v1 p1 h1
        omega
    -- t = 7
    · split at h
      · exact Except.noConfusion h
      next c p1 h1 =>
        split at h
        · exact Except.noConfusion h
        · split at h
          · exact Except.noConfusion h
          next vs p2 h2 =>
            injection h with h3
            injection h3 with h4 h5
            obtain ⟨ha, hb, _⟩ := readI_ok_iff 4 buf pos c p1 h1
            obtain ⟨hm1, hm2⟩ := readIElems_mono 1 buf c.toNat p1 vs p2 h2
            have hm3 := hm2 (by omega)
            omega
    -- t = 8
    · split at h
      · exact Except.noConfusion h
      next s1 p1 h1 =>
        injection h with h2
        injection h2 with h3 h4
        have := readStr_mono buf pos s1 p1 h1
        omega
    -- t = 9
    · split at h
      · exact Except.noConfusion h
      next ek p1 h1 =>
        split at h
        · exact Except.noConfusion h
        next c p2 h2 =>
          split at h
          · exact Except.noConfusion h
          · split at h
            · exact Except.noConfusion h
            next d =>
              split at h
              · exact Except.noConfusion h
              next vs p3 h3 =>
                injection h with h4
                injection h4 with h5 h6
                obtain ⟨ha, ha2, _⟩ := readBE_ok_iff 1 buf pos ek p1 h1
                obtain ⟨hb, hb2, _⟩ := readI_ok_iff 4 buf p1 c p2 h2
                obtain ⟨hm1, hm2⟩ := decodeElems_mono buf.length
                  (fun q => decodePayload buf d ek q)
                  (fun q w pw hq => ih d (Nat.lt_succ_self d) ek q w pw hq)
                  c.toNat p2 vs p3 h3
                have hm3 := hm2 (by omega)
                omega
    -- t = 10
    · split at h
      · exact Except.noConfusion h
      next d =>
        split at h
        · exact Except.noConfusion h
        next es p1 h1 =>
          injection h with h2
          injection h2 with h3 h4
          have hb := decodeBody_mono buf.length
            (fun q => decodeNamedWith (fun u q2 => decodePayload buf d u q2) buf q)
            (fun q r pr hq => decodeNamedWith_mono _ buf
              (fun u q2 w pw hq2 => ih d (Nat.lt_succ_self d) u q2 w pw hq2)
              q r pr hq)
            _ [] pos es p1 h1
          omega
    -- t = 11
    · split at h
      · exact Except.noConfusion h
      next c p1 h1 =>
        split at h
        · exact Except.noConfusion h
        · split at h
          · exact Except.noConfusion h
          next vs p2 h2 =>
            injection h with h3
            injection h3 with h4 h5
            obtain ⟨ha, hb, _⟩ := readI_ok_iff 4 buf pos c p1 h1
            obtain ⟨hm1, hm2⟩ := readIElems_mono 4 buf c.toNat p1 vs p2 h2
            have hm3 := hm2 (by omega)
            omega
    -- t = 12
    · split at h
      · exact Except.noConfusion h
      next c p1 h1 =>
        split at h
        · exact Except.noConfusion h
        · split at h
          · exact Except.noConfusion h
          next vs p2 h2 =>
            injection h with h3
            injection h3 with h4 h5
            obtain ⟨ha, hb, _⟩ := readI_ok_iff 4 buf pos c p1 h1
            obtain ⟨hm1, hm2⟩ := readIElems_mono 8 buf c.toNat p1 vs p2 h2
            have hm3 := hm2 (by omega)
            omega
    -- other t
    · exact Except.noConfusion h

/-! ### Truncation through the recursive decoding combinators -/

theorem readIElems_trunc (w : Nat) (buf : List Nat) (j : Nat) (hj : j ≤ buf.length) :
    ∀ (c pos : Nat) (vs : List Int) (p : Nat),
      readIElems w buf c pos = .ok (vs, p) → pos ≤ j →
      readIElems w (buf.take j) c pos =
        if p ≤ j then .ok (vs, p) else .error .unexpectedEndOfInput := by
  intro c
  induction c with
  | zero =>
    intro pos vs p h hpos
    injection h with h1
    injection h1 with h2 h3
    subst h2
    subst h3
    simp only [readIElems]
    rw [if_pos hpos]
  | succ m ih =>
    intro pos vs p h hpos
    simp only [readIElems] at h
    split at h
    · exact Except.noConfusion h
    next v1 p1 h1 =>
      split at h
      · exact Except.noConfusion h
      next vs2 p2 h2 =>
        injection h with h3
        injection h3 with h4 h5
        subst h4
        subst h5
        obtain ⟨hp1, hp1le, _⟩ := readI_ok_iff w buf pos v1 p1 h1
        obtain ⟨hm1, _⟩ := readIElems_mono w buf m p1 vs2 p2 h2
        by_cases hp1j : p1 ≤ j
        · have e1 := readI_trunc_ok w buf pos v1 p1 j h1 hp1j hj
          have e2 := ih p1 vs2 p2 h2 hp1j
          by_cases hp2j : p2 ≤ j
          · rw [if_pos hp2j] at e2
            simp only [readIElems, e1, e2, if_pos hp2j]
          · rw [if_neg hp2j] at e2
            simp only [readIElems, e1, e2, if_neg hp2j]
        · have e1 := readI_trunc_err w buf pos v1 p1 j h1 (by omega)
          simp only [readIElems, e1, if_neg (by omega : ¬p2 ≤ j)]

theorem decodeElems_trunc (dec dec2 : Nat → Except NbtError (Tag × Nat)) (L j : Nat)
    (hmono : ∀ q v p, dec q = .ok (v, p) → q ≤ p ∧ p ≤ L)
    (htr : ∀ q v p, dec q = .ok (v, p) → q ≤ j →
      dec2 q = if p ≤ j then .ok (v, p) else .error .unexpectedEndOfInput) :
    ∀ (c pos : Nat) (vs : List Tag) (p : Nat),
      decodeElems dec c pos = .ok (vs, p) → pos ≤ j →
      decodeElems dec2 c pos =
        if p ≤ j then .ok (vs, p) else .error .unexpectedEndOfInput := by
  intro c
  induction c with
  | zero =>
    intro pos vs p h hpos
    injection h with h1
    injection h1 with h2 h3
    subst h2
    subst h3
    simp only [decodeElems]
    rw [if_pos hpos]
  | succ m ih =>
    intro pos vs p h hpos
    simp only [decodeElems] at h
    split at h
    · exact Except.noConfusion h
    next v1 p1 h1 =>
      split at h
      · exact Except.noConfusion h
      next vs2 p2 h2 =>
        injection h with h3
        injection h3 with h4 h5
        subst h4
        subst h5
        obtain ⟨hq1, _⟩ := hmono pos v1 p1 h1
        obtain ⟨hq2, _⟩ := decodeElems_mono L dec hmono m p1 vs2 p2 h2
        by_cases hp1j : p1 ≤ j
        · have e1 := htr pos v1 p1 h1 hpos
          rw [if_pos hp1j] at e1
          have e2 := ih p1 vs2 p2 h2 hp1j
          by_cases hp2j : p2 ≤ j
          · rw [if_pos hp2j] at e2
            simp only [decodeElems, e1, e2, if_pos hp2j]
          · rw [if_neg hp2j] at e2
            simp only [decodeElems, e1, e2, if_neg hp2j]
        · have e1 := htr pos v1 p1 h1 hpos
          rw [if_neg hp1j] at e1
          simp only [decodeElems, e1, if_neg (by omega : ¬p2 ≤ j)]

theorem decodeBody_trunc (dec dec2 : Nat → Except NbtError (Option (List Nat × Tag) × Nat))
    (L j : Nat)
    (hmono : ∀ q r p, dec q = .ok (r, p) → q < p ∧ p ≤ L)
    (htr : ∀ q r p, dec q = .ok (r, p) → q ≤ j →
      dec2 q = if p ≤ j then .ok (r, p) else .error .unexpectedEndOfInput) :
    ∀ (b1 : Nat) (acc : List (List Nat × Tag)) (pos : Nat)
      (es : List (List Nat × Tag)) (p : Nat) (b2 : Nat),
      decodeBody dec b1 acc pos = .ok (es, p) → pos ≤ j → j + 1 - pos ≤ b2 →
      decodeBody dec2 b2 acc pos =
        if p ≤ j then .ok (es, p) else .error .unexpectedEndOfInput := by
  intro b1
  induction b1 with
  | zero => intro acc pos es p b2 h _ _; exact Except.noConfusion h
  | succ m ih =>
    intro acc pos es p b2 h hpos hb2
    obtain ⟨b2m, rfl⟩ : ∃ k, b2 = k + 1 := ⟨b2 - 1, by omega⟩
    simp only [decodeBody] at h
    split at h
    · exact Except.noConfusion h
    next p1 h1 =>
      injection h with h2
      injection h2 with h3 h4
      subst h3
      subst h4
      have e1 := htr pos none p1 h1 hpos
      by_cases hp1j : p1 ≤ j
      · rw [if_pos hp1j] at e1
        simp only [decodeBody, e1, if_pos hp1j]
      · rw [if_neg hp1j] at e1
        simp only [decodeBody, e1, if_neg hp1j]
    next nm v p1 h1 =>
      split at h
      · exact Except.noConfusion h
      next hnin =>
        obtain ⟨hlt, _⟩ := hmono pos (some (nm, v)) p1 h1
        obtain ⟨hrest, _⟩ := decodeBody_mono L dec hmono m _ p1 es p h
        have e1 := htr pos (some (nm, v)) p1 h1 hpos
        by_cases hp1j : p1 ≤ j
        · rw [if_pos hp1j] at e1
          have e2 := ih _ p1 es p b2m h hp1j (by omega)
          simp only [decodeBody, e1, if_neg hnin, e2]
        · rw [if_neg hp1j] at e1
          simp only [decodeBody, e1, if_neg (by omega : ¬p ≤ j)]

theorem decodeNamedWith_trunc (pd pd2 : Nat → Nat → Except NbtError (Tag × Nat))
    (buf : List Nat) (j : Nat) (hj : j ≤ buf.length)
    (hpm : ∀ t q v p, pd t q = .ok (v, p) → q ≤ p ∧ p ≤ buf.length)
    (hptr : ∀ t q v p, pd t q = .ok (v, p) → q ≤ j →
      pd2 t q = if p ≤ j then .ok (v, p) else .error .unexpectedEndOfInput)
    (pos : Nat) (r : Option (List Nat × Tag)) (p : Nat)
    (h : decodeNamedWith pd buf pos = .ok (r, p)) (hpos : pos ≤ j) :
    decodeNamedWith pd2 (buf.take j) pos =
      if p ≤ j then .ok (r, p) else .error .unexpectedEndOfInput := by
  obtain ⟨hplt, hple⟩ := decodeNamedWith_mono pd buf hpm pos r p h
  unfold decodeNamedWith at h ⊢
  cases hr : readU8 buf pos with
  | error e => rw [hr] at h; exact Except.noConfusion h
  | ok tp =>
    obtain ⟨t, p1⟩ := tp
    obtain ⟨hp1, hp1le, _⟩ := readBE_ok_iff 1 buf pos t p1 hr
    simp only [hr] at h
    by_cases hp1j : p1 ≤ j
    · have e0 : readU8 (buf.take j) pos = .ok (t, p1) :=
        readBE_trunc_ok 1 buf pos t p1 j hr hp1j hj
      simp only [e0]
      by_cases h0 : t = 0
      · subst h0
        rw [if_pos rfl] at h
        injection h with h1
        injection h1 with h2 h3
        subst h2
        subst h3
        rw [if_pos rfl, if_pos hp1j]
      · rw [if_neg h0] at h ⊢
        by_cases h12 : 12 < t
        · rw [if_pos h12] at h
          exact Except.noConfusion h
        · rw [if_neg h12] at h ⊢
          cases hs : readStr buf p1 with
          | error e => rw [hs] at h; exact Except.noConfusion h
          | ok sp =>
            obtain ⟨nm, p2⟩ := sp
            obtain ⟨hsm1, hsm2⟩ := readStr_mono buf p1 nm p2 hs
            simp only [hs] at h
            by_cases hp2j : p2 ≤ j
            · have e1 : readStr (buf.take j) p1 = .ok (nm, p2) :=
                readStr_trunc_ok buf p1 nm p2 j hs hp2j hj
              simp only [e1]
              cases hp : pd t p2 with
              | error e => simp only [hp] at h; exact Except.noConfusion h
              | ok vp =>
                obtain ⟨v, p3⟩ := vp
                simp only [hp] at h
                injection h with h1
                injection h1 with h2 h3
                subst h2
                subst h3
                have e2 := hptr t p2 v p3 hp hp2j
                by_cases hp3j : p3 ≤ j
                · rw [if_pos hp3j] at e2
                  simp only [e2, if_pos hp3j]
                · rw [if_neg hp3j] at e2
                  simp only [e2, if_neg hp3j]
            · have e1 : readStr (buf.take j) p1 = .error .unexpectedEndOfInput :=
                readStr_trunc_err buf p1 nm p2 j hs (by omega)
              simp only [e1]
              cases hp : pd t p2 with
              | error e => simp only [hp] at h; exact Except.noConfusion h
              | ok vp =>
                obtain ⟨v, p3⟩ := vp
                simp only [hp] at h
                injection h with h1
                injection h1 with h2 h3
                subst h2
                subst h3
                obtain ⟨hq, _⟩ := hpm t p2 v p3 hp
                rw [if_neg (by omega : ¬p3 ≤ j)]
    · have e0 : readU8 (buf.take j) pos = .error .unexpectedEndOfInput :=
        readBE_trunc_err 1 buf pos t p1 j hr (by omega)
      simp only [e0]
      rw [if_neg (by omega : ¬p ≤ j)]

/-- Truncating the buffer anywhere at or after the current position turns a
successful payload decode into the identical result when the truncation
point lies at or past its final position, and into `UnexpectedEndOfInput`
when it cuts the payload short. -/
theorem decodePayload_trunc (buf : List Nat) (j : Nat) (hj : j ≤ buf.length) :
    ∀ (dl t pos : Nat) (v : Tag) (p : Nat),
      decodePayload buf dl t pos = .ok (v, p) → pos ≤ j →
      decodePayload (buf.take j) dl t pos =
        if p ≤ j then .ok (v, p) else .error .unexpectedEndOfInput := by
  intro dl
  induction dl using Nat.strong_induction_on with
  | _ dl ih =>
    intro t pos v p h hpos
    rw [decodePayload.eq_def]
    unfold decodePayload at h
    split at h
    -- t = 1
    · split at h
      · exact Except.noConfusion h
      next v1 p1 h1 =>
        injection h with h2
        injection h2 with h3 h4
        subst h3
        subst h4
        by_cases hpj : p1 ≤ j
        · have e1 := readI_trunc_ok 1 buf pos v1 p1 j h1 hpj hj
          simp only [e1, if_pos hpj]
        · have e1 := readI_trunc_err 1 buf pos v1 p1 j h1 (by omega)
          simp only [e1, if_neg hpj]
    -- t = 2
    · split at h
      · exact Except.noConfusion h
      next v1 p1 h1 =>
        injection h with h2
        injection h2 with h3 h4
        subst h3
        subst h4
        by_cases hpj : p1 ≤ j
        · have e1 := readI_trunc_ok 2 buf pos v1 p1 j h1 hpj hj
          simp only [e1, if_pos hpj]
        · have e1 := readI_trunc_err 2 buf pos v1 p1 j h1 (by omega)
          simp only [e1, if_neg hpj]
    -- t = 3
    · split at h
      · exact Except.noConfusion h
      next v1 p1 h1 =>
        injection h with h2
        injection h2 with h3 h4
        subst h3
        subst h4
        by_cases hpj : p1 ≤ j
        · have e1 := readI_trunc_ok 4 buf pos v1 p1 j h1 hpj hj
          simp only [e1, if_pos hpj]
        · have e1 := readI_trunc_err 4 buf pos v1 p1 j h1 (by omega)
          simp only [e1, if_neg hpj]
    -- t = 4
    · split at h
      · exact Except.noConfusion h
      next v1 p1 h1 =>
        injection h with h2
        injection h2 with h3 h4
        subst h3
        subst h4
        by_cases hpj : p1 ≤ j
        · have e1 := readI_trunc_ok 8 buf pos v1 p1 j h1 hpj hj
          simp only [e1, if_pos hpj]
        · have e1 := readI_trunc_err 8 buf pos v1 p1 j h1 (by omega)
          simp only [e1, if_neg hpj]
    -- t = 5
    · split at h
      · exact Except.noConfusion h
      next v1 p1 h1 =>
        injection h with h2
        injection h2 with h3 h4
        subst h3
        subst h4
        by_cases hpj : p1 ≤ j
        · have e1 := readBE_trunc_ok 4 buf pos v1 p1 j h1 hpj hj
          simp only [e1, if_pos hpj]
        · have e1 := readBE_trunc_err 4 buf pos v1 p1 j h1 (by omega)
          simp only [e1, if_neg hpj]
    -- t = 6
    · split at h
      · exact Except.noConfusion h
      next v1 p1 h1 =>
        injection h with h2
        injection h2 with h3 h4
        subst h3
        subst h4
        by_cases hpj : p1 ≤ j
        · have e1 := readBE_trunc_ok 8 buf pos v1 p1 j h1 hpj hj
          simp only [e1, if_pos hpj]
        · have e1 := readBE_trunc_err 8 buf pos v1 p1 j h1 (by omega)
          simp only [e1, if_neg hpj]
    -- t = 7
    · split at h
      · exact Except.noConfusion h
      next c p1 h1 =>
        split at h
        · exact Except.noConfusion h
        next hneg =>
          split at h
          · exact Except.noConfusion h
          next vs p2 h2 =>
            injection h with h3
            injection h3 with h4 h5
            subst h4
            subst h5
            obtain ⟨hp1, hp1le, _⟩ := readI_ok_iff 4 buf pos c p1 h1
            obtain ⟨hm1, _⟩ := readIElems_mono 1 buf c.toNat p1 vs p2 h2
            by_cases hp1j : p1 ≤ j
            · have e1 := readI_trunc_ok 4 buf pos c p1 j h1 hp1j hj
              have e2 := readIElems_trunc 1 buf j hj c.toNat p1 vs p2 h2 hp1j
              by_cases hp2j : p2 ≤ j
              · rw [if_pos hp2j] at e2
                simp only [e1, if_neg hneg, e2, if_pos hp2j]
              · rw [if_neg hp2j] at e2
                simp only [e1, if_neg hneg, e2, if_neg hp2j]
            · have e1 := readI_trunc_err 4 buf pos c p1 j h1 (by omega)
              simp only [e1, if_neg (by omega : ¬p2 ≤ j)]
    -- t = 8
    · split at h
      · exact Except.noConfusion h
      next s1 p1 h1 =>
        injection h with h2
        injection h2 with h3 h4
        subst h3
        subst h4
        by_cases hpj : p1 ≤ j
        · have e1 := readStr_trunc_ok buf pos s1 p1 j h1 hpj hj
          simp only [e1, if_pos hpj]
        · have e1 := readStr_trunc_err buf pos s1 p1 j h1 (by omega)
          simp only [e1, if_neg hpj]
    -- t = 9
    · split at h
      · exact Except.noConfusion h
      next ek p1 h1 =>
        split at h
        · exact Except.noConfusion h
        next c p2 h2 =>
          split at h
          · exact Except.noConfusion h
          next hneg =>
            split at h
            · exact Except.noConfusion h
            next d =>
              split at h
              · exact Except.noConfusion h
              next vs p3 h3 =>
                injection h with h4
                injection h4 with h5 h6
                subst h5
                subst h6
                obtain ⟨hp1, hp1le, _⟩ := readBE_ok_iff 1 buf pos ek p1 h1
                obtain ⟨hp2, hp2le, _⟩ := readI_ok_iff 4 buf p1 c p2 h2
                have hmono : ∀ q w pw, decodePayload buf d ek q = .ok (w, pw) →
                    q ≤ pw ∧ pw ≤ buf.length :=
                  fun q w pw hq => decodePayload_mono buf d ek q w pw hq
                obtain ⟨hm1, _⟩ := decodeElems_mono buf.length
                  (fun q => decodePayload buf d ek q) hmono c.toNat p2 vs p3 h3
                by_cases hp1j : p1 ≤ j
                · have e1 : readU8 (buf.take j) pos = .ok (ek, p1) :=
                    readBE_trunc_ok 1 buf pos ek p1 j h1 hp1j hj
                  by_cases hp2j : p2 ≤ j
                  · have e2 := readI_trunc_ok 4 buf p1 c p2 j h2 hp2j hj
                    have e3 := decodeElems_trunc (fun q => decodePayload buf d ek q)
                      (fun q => decodePayload (buf.take j) d ek q) buf.length j
                      hmono
                      (fun q w pw hq hqj => ih d (Nat.lt_succ_self d) ek q w pw hq hqj)
                      c.toNat p2 vs p3 h3 hp2j
                    by_cases hp3j : p3 ≤ j
                    · rw [if_pos hp3j] at e3
                      simp only [e1, e2, if_neg hneg, e3, if_pos hp3j]
                    · rw [if_neg hp3j] at e3
                      simp only [e1, e2, if_neg hneg, e3, if_neg hp3j]
                  · have e2 := readI_trunc_err 4 buf p1 c p2 j h2 (by omega)
                    simp only [e1, e2, if_neg (by omega : ¬p3 ≤ j)]
                · have e1 : readU8 (buf.take j) pos = .error .unexpectedEndOfInput :=
                    readBE_trunc_err 1 buf pos ek p1 j h1 (by omega)
                  simp only [e1, if_neg (by omega : ¬p3 ≤ j)]
    -- t = 10
    · split at h
      · exact Except.noConfusion h
      next d =>
        split at h
        · exact Except.noConfusion h
        next es p1 h1 =>
          injection h with h2
          injection h2 with h3 h4
          subst h3
          subst h4
          have hpm : ∀ u q2 w pw, decodePayload buf d u q2 = .ok (w, pw) →
              q2 ≤ pw ∧ pw ≤ buf.length :=
            fun u q2 w pw hq2 => decodePayload_mono buf d u q2 w pw hq2
          have hmono : ∀ q r pr,
              decodeNamedWith (fun u q2 => decodePayload buf d u q2) buf q = .ok (r, pr) →
              q < pr ∧ pr ≤ buf.length :=
            fun q r pr hq =>
              decodeNamedWith_mono (fun u q2 => decodePayload buf d u q2) buf hpm q r pr hq
          have htr : ∀ q r pr,
              decodeNamedWith (fun u q2 => decodePayload buf d u q2) buf q = .ok (r, pr) →
              q ≤ j →
              decodeNamedWith (fun u q2 => decodePayload (buf.take j) d u q2)
                  (buf.take j) q =
                if pr ≤ j then .ok (r, pr) else .error .unexpectedEndOfInput := by
            intro q r pr hq hqj
            exact decodeNamedWith_trunc _ _ buf j hj hpm
              (fun u q2 w pw hq2 hq2j => ih d (Nat.lt_succ_self d) u q2 w pw hq2 hq2j)
              q r pr hq hqj
          have e1 := decodeBody_trunc
            (fun q => decodeNamedWith (fun u q2 => decodePayload buf d u q2) buf q)
            (fun q => decodeNamedWith (fun u q2 => decodePayload (buf.take j) d u q2)
              (buf.take j) q)
            buf.length j hmono htr
            (buf.length + 1 - pos) [] pos es p1 (j + 1 - pos) h1 hpos (Nat.le_refl _)
          rw [List.length_take, Nat.min_eq_left hj]
          by_cases hp1j : p1 ≤ j
          · rw [if_pos hp1j] at e1
            simp only [e1, if_pos hp1j]
          · rw [if_neg hp1j] at e1
            simp only [e1, if_neg hp1j]
    -- t = 11
    · split at h
      · exact Except.noConfusion h
      next c p1 h1 =>
        split at h
        · exact Except.noConfusion h
        next hneg =>
          split at h
          · exact Except.noConfusion h
          next vs p2 h2 =>
            injection h with h3
            injection h3 with h4 h5
            subst h4
            subst h5
            obtain ⟨hp1, hp1le, _⟩ := readI_ok_iff 4 buf pos c p1 h1
            obtain ⟨hm1, _⟩ := readIElems_mono 4 buf c.toNat p1 vs p2 h2
            by_cases hp1j : p1 ≤ j
            · have e1 := readI_trunc_ok 4 buf pos c p1 j h1 hp1j hj
              have e2 := readIElems_trunc 4 buf j hj c.toNat p1 vs p2 h2 hp1j
              by_cases hp2j : p2 ≤ j
              · rw [if_pos hp2j] at e2
                simp only [e1, if_neg hneg, e2, if_pos hp2j]
              · rw [if_neg hp2j] at e2
                simp only [e1, if_neg hneg, e2, if_neg hp2j]
            · have e1 := readI_trunc_err 4 buf pos c p1 j h1 (by omega)
              simp only [e1, if_neg (by omega : ¬p2 ≤ j)]
    -- t = 12
    · split at h
      · exact Except.noConfusion h
      next c p1 h1 =>
        split at h
        · exact Except.noConfusion h
        next hneg =>
          split at h
          · exact Except.noConfusion h
          next vs p2 h2 =>
            injection h with h3
            injection h3 with h4 h5
            subst h4
            subst h5
            obtain ⟨hp1, hp1le, _⟩ := readI_ok_iff 4 buf pos c p1 h1
            obtain ⟨hm1, _⟩ := readIElems_mono 8 buf c.toNat p1 vs p2 h2
            by_cases hp1j : p1 ≤ j
            · have e1 := readI_trunc_ok 4 buf pos c p1 j h1 hp1j hj
              have e2 := readIElems_trunc 8 buf j hj c.toNat p1 vs p2 h2 hp1j
              by_cases hp2j : p2 ≤ j
              · rw [if_pos hp2j] at e2
                simp only [e1, if_neg hneg, e2, if_pos hp2j]
              · rw [if_neg hp2j] at e2
                simp only [e1, if_neg hneg, e2, if_neg hp2j]
            · have e1 := readI_trunc_err 4 buf pos c p1 j h1 (by omega)
              simp only [e1, if_neg (by omega : ¬p2 ≤ j)]
    -- other t
    · exact Except.noConfusion h

/-- C2: for every input on which the decode entry point succeeds — the root
Compound occupying the first `k` bytes — truncating the input at any byte
offset strictly before `k` makes the decode fail with
`UnexpectedEndOfInput`: it neither crashes (the decoder is a total
function) nor returns a success value over a silently shortened tree. -/
theorem truncation_yields_eof :
    ∀ (buf : List Nat) (nm : List Nat) (v : Tag) (k j : Nat),
      parseRoot buf = .ok ((nm, v), k) → j < k →
      parse_nbt (buf.take j) = .error .unexpectedEndOfInput := by
  intro buf nm v k j h hjk
  obtain ⟨hdec, es, hv⟩ := parseRoot_ok_shape buf nm v k h
  unfold decodeNamedTag at hdec
  have hpm : ∀ t q w pw, decodePayload buf MAX_DEPTH t q = .ok (w, pw) →
      q ≤ pw ∧ pw ≤ buf.length :=
    fun t q w pw hq => decodePayload_mono buf MAX_DEPTH t q w pw hq
  obtain ⟨hk0, hkle⟩ := decodeNamedWith_mono _ buf hpm 0 (some (nm, v)) k hdec
  have hjle : j ≤ buf.length := by omega
  have e1 := decodeNamedWith_trunc
    (fun u q => decodePayload buf MAX_DEPTH u q)
    (fun u q => decodePayload (buf.take j) MAX_DEPTH u q)
    buf j hjle hpm
    (fun u q w pw hq hqj => decodePayload_trunc buf j hjle MAX_DEPTH u q w pw hq hqj)
    0 (some (nm, v)) k hdec (by omega)
  rw [if_neg (by omega : ¬k ≤ j)] at e1
  unfold parse_nbt parseRoot decodeNamedTag
  simp only [e1]

/-- Witness for C2 at a concrete input: the C1 bytes decode successfully
with the root Compound occupying all 9 bytes, and truncation after 4 bytes
fails with `UnexpectedEndOfInput`. -/
theorem truncation_yields_eof_witness :
    parseRoot [10, 0, 0, 1, 0, 1, 65, 5, 0] =
      .ok (([], .compound [([65], .byte 5)]), 9) ∧
    (4 : Nat) < 9 ∧
    parse_nbt ([10, 0, 0, 1, 0, 1, 65, 5, 0].take 4) = .error .unexpectedEndOfInput :=
  ⟨parseRoot_concrete, by omega,
    truncation_yields_eof [10, 0, 0, 1, 0, 1, 65, 5, 0] [] (.compound [([65], .byte 5)]) 9 4
      parseRoot_concrete (by omega)⟩

end NbtSpec
